import Mathlib

/-!
# DoublyBufferedData: a verification development

Shallow embedding of `src/Containers/DoublyBufferedData/doubly_buffered_data.h`
(the container) and of the `Servers` example of `doubly_buffered_data_test.cc`.

Conventions of the embedding.

* A reference `T&` into the storage array `_data[2]` is the number of the slot
  it designates (0 or 1).  A callable `size_t fn(T& bg)` is a function of that
  slot number and of the container it is run in, returning the value it leaves
  in the slot together with its `size_t` result.
* A `Wrapper*` is a natural number (the address); `NULL` is `none`.
* `_index` is a C++ `int` that only ever holds 0 or 1: the constructor stores 0
  and `Modify` stores the result of `!`.
* The sequential functions record the synchronisation operations they perform
  in a list of events; lock acquisitions are taken to succeed.  Interleavings of
  several threads are the subject of the step function `step` on `Sys`.
-/

namespace DoublyBufferedData

/-- Address of a heap-allocated `Wrapper`. -/
abbrev WrapperPtr := Nat

/-- Operations performed by a call, in program order. -/
inductive Event where
  | lockModify
  | unlockModify
  | lockWrappers
  | unlockWrappers
  | apply (slot : Nat)
  | store (idx : Nat)
  | waitReadDone (w : WrapperPtr)
  | beginRead (w : WrapperPtr)
  deriving DecidableEq, Repr

/-- The data members of `DoublyBufferedData<T, TLS>`. -/
structure Container (T : Type) where
  data0 : T
  data1 : T
  index : Nat
  created_key : Bool
  wrappers : List WrapperPtr
  deriving DecidableEq, Repr

/-- The C++ operator `!` on an `int`, as an `int`. -/
def lnot (x : Nat) : Nat := if x = 0 then 1 else 0

/-- The value of a C++ `bool` used as an array subscript. -/
def boolIdx (b : Bool) : Nat := if b then 1 else 0

variable {T : Type}

/-- Contents of `_data[k]`. -/
def Container.dataAt (c : Container T) (k : Nat) : T :=
  if k = 0 then c.data0 else c.data1

/-- Assignment to `_data[k]`. -/
def Container.setData (c : Container T) (k : Nat) (v : T) : Container T :=
  if k = 0 then { c with data0 := v } else { c with data1 := v }

/-- A callable `size_t fn(T& bg)`: slot designated by `bg`, container it runs
in; result: the value left in that slot and the returned `size_t`. -/
abbrev RefFn (T : Type) := Nat → Container T → T × Nat

/-- A callable that only looks at the copy it is handed. -/
def valueFn (f : T → T × Nat) : RefFn T := fun k c => f (c.dataAt k)

/-- Constructor `DoublyBufferedData()`: `rc` is the result of
`pthread_key_create`, `init` the value-initialised `T()`. -/
def construct (init : T) (rc : Int) : Container T :=
  { data0 := init, data1 := init, index := 0,
    created_key := decide (rc = 0), wrappers := [] }

/-- Result of a `Modify` call. -/
structure ModifyResult (T : Type) where
  post : Container T
  ret : Nat
  trace : List Event

/-- Method `Modify(Fn& fn)`. -/
def Modify (fn : RefFn T) (c : Container T) : ModifyResult T :=
  let bg_index := lnot c.index
  let r := fn bg_index c
  let c1 := c.setData bg_index r.1
  if r.2 = 0 then
    { post := c1, ret := 0,
      trace := [Event.lockModify, Event.apply bg_index, Event.unlockModify] }
  else
    let c2 := { c1 with index := bg_index }
    let bg_index2 := lnot bg_index
    let r2 := fn bg_index2 c2
    let c3 := c2.setData bg_index2 r2.1
    { post := c3, ret := r2.2,
      trace := [Event.lockModify, Event.apply bg_index, Event.store bg_index,
                Event.lockWrappers]
               ++ c2.wrappers.map Event.waitReadDone
               ++ [Event.unlockWrappers, Event.apply bg_index2, Event.unlockModify] }

/-- Struct `Closure1`: binds one extra argument. -/
def Closure1 {A : Type} (fn : T → A → T × Nat) (arg1 : A) : RefFn T :=
  fun k c => fn (c.dataAt k) arg1

/-- Method `Modify(Fn& fn, const Arg1&)`. -/
def Modify1 {A : Type} (fn : T → A → T × Nat) (arg1 : A) (c : Container T) :
    ModifyResult T :=
  Modify (Closure1 fn arg1) c

/-- Struct `WithFG0`: `_fn(bg, (const T&)_data[&bg == _data])`.  The reference
`bg` designates slot `k`, so `&bg == _data` holds exactly when `k = 0`. -/
def WithFG0 (fn : T → T → T × Nat) : RefFn T :=
  fun k c => fn (c.dataAt k) (c.dataAt (boolIdx (decide (k = 0))))

/-- Method `ModifyWithForeground(Fn& fn)`. -/
def ModifyWithForeground (fn : T → T → T × Nat) (c : Container T) : ModifyResult T :=
  Modify (WithFG0 fn) c

/-- A sequence of `Modify` calls, one after the other. -/
def runModifies (c : Container T) (fns : List (T → T × Nat)) : Container T :=
  fns.foldl (fun s f => (Modify (valueFn f) s).post) c

/-- Number of applications of the mutation function recorded in a trace. -/
def applyCount (tr : List Event) : Nat :=
  (tr.filter (fun e => match e with | Event.apply _ => true | _ => false)).length

/-- Number of `WaitReadDone` calls recorded in a trace. -/
def drainCount (tr : List Event) : Nat :=
  (tr.filter (fun e => match e with | Event.waitReadDone _ => true | _ => false)).length

/-- A mutation that increments its copy and reports 0. -/
def rejectingIncrement (x : Nat) : Nat × Nat := (x + 1, 0)

/-- A mutation that increments its copy and reports 1. -/
def acceptingIncrement (x : Nat) : Nat × Nat := (x + 1, 1)

/-- A mutation that leaves its copy alone and reports the copy's value. -/
def echoValue (x : Nat) : Nat × Nat := (x, x)

/-! ### Wrapper registry and the read path -/

/-- The loop of `RemoveWrapper`: `rest` holds `_wrappers[i..]`; at the first
`i` with `_wrappers[i] == w` the last element is copied into position `i` and
the vector is popped. -/
def RemoveWrapper.loop (w : WrapperPtr) (ws : List WrapperPtr) :
    List WrapperPtr → Nat → List WrapperPtr
  | [], _ => ws
  | x :: rest, i =>
    if x = w then (ws.set i (ws.getLastD x)).dropLast
    else RemoveWrapper.loop w ws rest (i + 1)

/-- Method `RemoveWrapper(Wrapper* w)`. -/
def RemoveWrapper (w : Option WrapperPtr) (c : Container T) : Container T :=
  match w with
  | none => c
  | some w => { c with wrappers := RemoveWrapper.loop w c.wrappers c.wrappers 0 }

/-- Method `AddWrapper()`.  `newResult` is what `new (std::nothrow) Wrapper(this)`
returned, `pushThrows` tells whether the guarded `push_back` threw; in that
case the `unique_ptr` destroys the wrapper, whose destructor calls
`RemoveWrapper(this)`. -/
def AddWrapper (newResult : Option WrapperPtr) (pushThrows : Bool) (c : Container T) :
    Option WrapperPtr × Container T :=
  match newResult with
  | none => (none, c)
  | some w =>
    if pushThrows then (none, RemoveWrapper (some w) c)
    else (some w, { c with wrappers := c.wrappers ++ [w] })

/-- Class `ScopedPtr`: `data` is the slot `_data` points at, `w` the wrapper. -/
structure ScopedPtr where
  data : Option Nat
  w : Option WrapperPtr
  deriving DecidableEq, Repr

/-- Method `UnsafeRead()`: the slot `_data + _index` points at. -/
def UnsafeRead (c : Container T) : Nat := c.index

/-- Result of a `Read` call: return code, the handle, the container, the
calling thread's value for `_wrapper_key`, and the operations performed. -/
structure ReadResult (T : Type) where
  rc : Int
  ptr : ScopedPtr
  post : Container T
  specific : Option WrapperPtr
  trace : List Event

/-- Method `Read(ScopedPtr* ptr)`.  `specific` is the calling thread's value
for `_wrapper_key` (`pthread_getspecific`), `setRc` the result of
`pthread_setspecific`; `newResult` and `pushThrows` are as in `AddWrapper`. -/
def Read (c : Container T) (specific : Option WrapperPtr) (newResult : Option WrapperPtr)
    (pushThrows : Bool) (setRc : Int) (ptr : ScopedPtr) : ReadResult T :=
  if c.created_key = false then
    { rc := -1, ptr := ptr, post := c, specific := specific, trace := [] }
  else
    match specific with
    | some w =>
      { rc := 0, ptr := { data := some (UnsafeRead c), w := some w }, post := c,
        specific := some w, trace := [Event.beginRead w] }
    | none =>
      match AddWrapper newResult pushThrows c with
      | (some w, c1) =>
        if setRc = 0 then
          { rc := 0, ptr := { data := some (UnsafeRead c1), w := some w }, post := c1,
            specific := some w, trace := [Event.beginRead w] }
        else
          { rc := -1, ptr := ptr, post := c1, specific := none, trace := [] }
      | (none, c1) =>
        { rc := -1, ptr := ptr, post := c1, specific := none, trace := [] }

/-- The value `*ptr` of a handle in container state `c`. -/
def ScopedPtr.deref (ptr : ScopedPtr) (c : Container T) : Option T :=
  ptr.data.map c.dataAt

/-- The calling thread can obtain a wrapper: it has one already, or the
allocation, the registration and `pthread_setspecific` all succeed. -/
def wrapperObtainable (specific newResult : Option WrapperPtr) (pushThrows : Bool)
    (setRc : Int) : Prop :=
  specific.isSome = true ∨ (newResult.isSome = true ∧ pushThrows = false ∧ setRc = 0)

/-- First `Read` of one thread after the other; thread `j` is given the
wrapper address `ws[j]` by `new`. -/
def firstReads (c : Container T) (ws : List WrapperPtr) : Container T :=
  ws.foldl (fun s w => (Read s none (some w) false 0 { data := none, w := none }).post) c

/-- Thread exits, one after the other: the key destructor deletes the thread's
wrapper, whose destructor calls `RemoveWrapper(this)`. -/
def threadExits (c : Container T) (order : List WrapperPtr) : Container T :=
  order.foldl (fun s w => RemoveWrapper (some w) s) c

/-! ### The `Servers` example -/

/-- Type `ServerId` (`uint32_t`). -/
abbrev ServerId := Nat

/-- Struct `Servers`; the `unordered_map` is a finite map given by its lookup
function. -/
structure Servers where
  server_list : List ServerId
  server_map : ServerId → Option Nat

/-- Value-initialised `Servers`. -/
def Servers.empty : Servers := { server_list := [], server_map := fun _ => none }

/-- Function `RoundRobinLoadBalancer::Add`; the `reserve` call leaves the
contents of `server_list` as they are. -/
def Add (bg : Servers) (id : ServerId) : Servers × Bool :=
  match bg.server_map id with
  | some _ => (bg, false)
  | none =>
    ({ server_list := bg.server_list ++ [id],
       server_map := Function.update bg.server_map id (some bg.server_list.length) }, true)

/-- Function `RoundRobinLoadBalancer::Remove`.  The subscript `index` and
`back()` are in range whenever the value is consistent. -/
def Remove (bg : Servers) (id : ServerId) : Servers × Bool :=
  match bg.server_map id with
  | some index =>
    let list1 := bg.server_list.set index (bg.server_list.getLastD id)
    let map1 := Function.update bg.server_map (list1.getD index id) (some index)
    ({ server_list := list1.dropLast, server_map := Function.update map1 id none }, true)
  | none => (bg, false)

/-- A `bool`-returning mutation as a callable returning `size_t`. -/
def asSizeT (fn : Servers → ServerId → Servers × Bool) (bg : Servers) (id : ServerId) :
    Servers × Nat :=
  ((fn bg id).1, boolIdx (fn bg id).2)

/-- Function `RoundRobinLoadBalancer::AddServer`. -/
def AddServer (id : ServerId) (c : Container Servers) : Container Servers × Bool :=
  ((Modify1 (asSizeT Add) id c).post, decide ((Modify1 (asSizeT Add) id c).ret ≠ 0))

/-- Function `RoundRobinLoadBalancer::RemoveServer`. -/
def RemoveServer (id : ServerId) (c : Container Servers) : Container Servers × Bool :=
  ((Modify1 (asSizeT Remove) id c).post, decide ((Modify1 (asSizeT Remove) id c).ret ≠ 0))

/-- Consistency of a `Servers` value: no id occurs twice in `server_list`, and
`server_map` maps exactly the ids of `server_list`, each to its position. -/
def Servers.Consistent (s : Servers) : Prop :=
  s.server_list.Nodup ∧ ∀ id p, s.server_map id = some p ↔ s.server_list[p]? = some id

/-- A two-argument mutation that stores the successor of the read-only copy
and reports 1. -/
def succOfForeground (_bg fg : Nat) : Nat × Nat := (fg + 1, 1)

/-- The scenario: `AddServer(7)` on a freshly constructed container. -/
def scenarioAdd7 : Container Servers × Bool := AddServer 7 (construct Servers.empty 0)

/-- The scenario, continued: `AddServer(3)`. -/
def scenarioAdd3 : Container Servers × Bool := AddServer 3 scenarioAdd7.1

/-- The scenario, continued: `RemoveServer(7)`. -/
def scenarioRemove7 : Container Servers × Bool := RemoveServer 7 scenarioAdd3.1

/-! ### Interleavings of reader threads with a writer

A state of the whole system and a step function: each step is one lock
operation, one access to `_index`, one application of the mutation function, or
one critical section on `_wrappers` run under `_wrappers_mutex` by a reader
thread.  A step that would block on a held mutex is not enabled (`none`).
Steps are interleaved in any order (sequentially consistent memory).  Calls of
`Modify` hold `_modify_mutex` from start to end, so they run one at a time: the
writer of the model is the thread holding `_modify_mutex`. -/

/-- Identity of a thread. -/
abbrev ThreadId := Nat

/-- Who holds a wrapper's `_mutex`. -/
inductive Owner where
  | reader (t : ThreadId)
  | writer
  deriving DecidableEq, Repr

/-- Program point of a reader thread.  `registered w`: `AddWrapper` returned
`w`, `pthread_setspecific` is next; `beginRead w`: `w->BeginRead()` is next;
`unsafeRead w`: the thread holds `w->_mutex`, `UnsafeRead()` is next;
`holding w slot`: `Read` returned 0 and the handle (`_data` pointing at `slot`,
`_w = w`) is alive; `exited`: the thread has terminated. -/
inductive RPc where
  | idle
  | registered (w : WrapperPtr)
  | beginRead (w : WrapperPtr)
  | unsafeRead (w : WrapperPtr)
  | holding (w : WrapperPtr) (slot : Nat)
  | exited
  deriving DecidableEq, Repr

/-- A reader thread: program point and its value for `_wrapper_key`. -/
structure Reader where
  pc : RPc
  specific : Option WrapperPtr
  deriving DecidableEq, Repr

/-- Program point of the writer inside `Modify(fn)`, with the local
`bg_index`; `drain fn bg i`: in the loop over `_wrappers` at position `i`,
holding `_wrappers_mutex`; `drainLocked fn bg i`: inside
`_wrappers[i]->WaitReadDone()`, holding that wrapper's `_mutex`. -/
inductive WPc (T : Type) where
  | idle
  | loadIndex (fn : RefFn T)
  | applyBg (fn : RefFn T) (bg : Nat)
  | publish (fn : RefFn T) (bg : Nat)
  | lockWrappers (fn : RefFn T) (bg : Nat)
  | drain (fn : RefFn T) (bg : Nat) (i : Nat)
  | drainLocked (fn : RefFn T) (bg : Nat) (i : Nat)
  | applyFg (fn : RefFn T) (bg : Nat)

/-- State of the system: the container, whether `_wrappers_mutex` is held (by
the writer's drain), the owner of each wrapper's `_mutex`, the next address
handed out by `new`, the reader threads and the writer. -/
structure Sys (T : Type) where
  c : Container T
  wrappers_locked : Bool
  wmutex : WrapperPtr → Option Owner
  next : WrapperPtr
  readers : ThreadId → Reader
  writer : WPc T

/-- One scheduling choice.  `read t newOk pushThrows`: thread `t` enters `Read`
and runs it up to the point where it has a wrapper (`newOk`, `pushThrows`: the
outcomes of `new` and of `push_back` in `AddWrapper`); `setSpecific t rc`:
`pthread_setspecific` returning `rc`; `beginRead`, `unsafeRead`: the next two
statements of `Read`; `endRead t`: the handle is destroyed; `exit t`: the
thread terminates and its wrapper is deleted; `modify fn`: the writer enters
`Modify(fn)`; `writerStep`: the writer's next statement. -/
inductive Action (T : Type) where
  | read (t : ThreadId) (newOk pushThrows : Bool)
  | setSpecific (t : ThreadId) (rc : Int)
  | beginRead (t : ThreadId)
  | unsafeRead (t : ThreadId)
  | endRead (t : ThreadId)
  | exit (t : ThreadId)
  | modify (fn : RefFn T)
  | writerStep

/-- Set the program point of reader `t`. -/
def Sys.setPc (s : Sys T) (t : ThreadId) (pc : RPc) : Sys T :=
  { s with readers := Function.update s.readers t { s.readers t with pc := pc } }

/-- Steps of a reader thread. -/
def stepReader (s : Sys T) : Action T → Option (Sys T)
  | .read t newOk pushThrows =>
    match (s.readers t).pc with
    | .idle =>
      if s.c.created_key = false then some s
      else
        match (s.readers t).specific with
        | some w => some (s.setPc t (.beginRead w))
        | none =>
          if s.wrappers_locked then none
          else
            match AddWrapper (if newOk then some s.next else none) pushThrows s.c with
            | (some w, c1) =>
              some ({ s with c := c1, next := s.next + 1 }.setPc t (.registered w))
            | (none, c1) => some { s with c := c1, next := s.next + 1 }
    | _ => none
  | .setSpecific t rc =>
    match (s.readers t).pc with
    | .registered w =>
      if rc = 0 then
        some { s with readers :=
          Function.update s.readers t { pc := .beginRead w, specific := some w } }
      else some (s.setPc t .idle)
    | _ => none
  | .beginRead t =>
    match (s.readers t).pc with
    | .beginRead w =>
      match s.wmutex w with
      | none =>
        some ({ s with wmutex := Function.update s.wmutex w (some (.reader t)) }.setPc t
          (.unsafeRead w))
      | some _ => none
    | _ => none
  | .unsafeRead t =>
    match (s.readers t).pc with
    | .unsafeRead w => some (s.setPc t (.holding w (UnsafeRead s.c)))
    | _ => none
  | .endRead t =>
    match (s.readers t).pc with
    | .holding w _ =>
      some ({ s with wmutex := Function.update s.wmutex w none }.setPc t .idle)
    | _ => none
  | .exit t =>
    match (s.readers t).pc with
    | .idle =>
      match (s.readers t).specific with
      | some w =>
        if s.wrappers_locked then none
        else
          some { s with c := RemoveWrapper (some w) s.c,
                        readers := Function.update s.readers t
                          { pc := .exited, specific := none } }
      | none => some (s.setPc t .exited)
    | _ => none
  | _ => none

/-- Steps of the writer: the statements of `Modify`, one at a time. -/
def stepWriter (s : Sys T) : Option (Sys T) :=
  match s.writer with
  | .idle => none
  | .loadIndex fn => some { s with writer := .applyBg fn (lnot s.c.index) }
  | .applyBg fn bg =>
    if (fn bg s.c).2 = 0 then
      some { s with c := s.c.setData bg (fn bg s.c).1, writer := .idle }
    else
      some { s with c := s.c.setData bg (fn bg s.c).1, writer := .publish fn bg }
  | .publish fn bg =>
    some { s with c := { s.c with index := bg }, writer := .lockWrappers fn (lnot bg) }
  | .lockWrappers fn bg =>
    if s.wrappers_locked then none
    else some { s with wrappers_locked := true, writer := .drain fn bg 0 }
  | .drain fn bg i =>
    match s.c.wrappers[i]? with
    | some w =>
      match s.wmutex w with
      | none =>
        some { s with wmutex := Function.update s.wmutex w (some .writer),
                      writer := .drainLocked fn bg i }
      | some _ => none
    | none => some { s with wrappers_locked := false, writer := .applyFg fn bg }
  | .drainLocked fn bg i =>
    match s.c.wrappers[i]? with
    | some w =>
      some { s with wmutex := Function.update s.wmutex w none,
                    writer := .drain fn bg (i + 1) }
    | none => none
  | .applyFg fn bg =>
    some { s with c := s.c.setData bg (fn bg s.c).1, writer := .idle }

/-- One step of the system. -/
def step (s : Sys T) : Action T → Option (Sys T)
  | .modify fn =>
    match s.writer with
    | .idle => some { s with writer := .loadIndex fn }
    | _ => none
  | .writerStep => stepWriter s
  | a => stepReader s a

/-- A schedule run from a state. -/
def run (s : Sys T) : List (Action T) → Option (Sys T)
  | [] => some s
  | a :: rest => (step s a).bind (fun s1 => run s1 rest)

/-- The system right after construction of the container: no thread has read
yet, the writer is outside `Modify`. -/
def initial (init : T) (rc : Int) : Sys T :=
  { c := construct init rc, wrappers_locked := false, wmutex := fun _ => none, next := 1,
    readers := fun _ => { pc := .idle, specific := none }, writer := .idle }

/-- Thread `t` owns wrapper `w`. -/
def Owns (s : Sys T) (t : ThreadId) (w : WrapperPtr) : Prop :=
  (s.readers t).specific = some w ∨ (s.readers t).pc = .registered w

/-- What holds of the readers at each program point of the writer: outside the
drain every live handle points at the foreground slot; during the drain this
holds of the handles whose wrapper has been waited for. -/
def WriterInv (s : Sys T) : Prop :=
  match s.writer with
  | .idle => ∀ t w k, (s.readers t).pc = .holding w k → k = s.c.index
  | .loadIndex _ => ∀ t w k, (s.readers t).pc = .holding w k → k = s.c.index
  | .applyBg _ bg => bg = lnot s.c.index ∧
      ∀ t w k, (s.readers t).pc = .holding w k → k = s.c.index
  | .publish _ bg => bg = lnot s.c.index ∧
      ∀ t w k, (s.readers t).pc = .holding w k → k = s.c.index
  | .lockWrappers _ bg => bg = lnot s.c.index
  | .drain _ bg i => bg = lnot s.c.index ∧ s.wrappers_locked = true ∧
      ∀ t w k, (s.readers t).pc = .holding w k → w ∈ s.c.wrappers.take i → k = s.c.index
  | .drainLocked _ bg i => bg = lnot s.c.index ∧ s.wrappers_locked = true ∧
      (∃ w, s.c.wrappers[i]? = some w ∧ s.wmutex w = some .writer) ∧
      ∀ t w k, (s.readers t).pc = .holding w k → w ∈ s.c.wrappers.take i → k = s.c.index
  | .applyFg _ bg => bg = lnot s.c.index ∧
      ∀ t w k, (s.readers t).pc = .holding w k → k = s.c.index

/-- The inductive invariant of the step function. -/
structure Inv (s : Sys T) : Prop where
  index_le : s.c.index ≤ 1
  mutex_held : ∀ t w, ((s.readers t).pc = .unsafeRead w ∨ ∃ k, (s.readers t).pc = .holding w k) →
    s.wmutex w = some (.reader t)
  specific_set : ∀ t w, ((s.readers t).pc = .beginRead w ∨ (s.readers t).pc = .unsafeRead w ∨
    ∃ k, (s.readers t).pc = .holding w k) → (s.readers t).specific = some w
  registered : ∀ t w, Owns s t w → w ∈ s.c.wrappers
  owner_unique : ∀ t t1 w, Owns s t w → Owns s t1 w → t = t1
  below_next : ∀ w ∈ s.c.wrappers, w < s.next
  writer_inv : WriterInv s

/-- The handle (`w`, slot `k`) of thread `t` is alive in every state the
schedule `more` goes through from `s`. -/
def heldThroughout (s : Sys T) (t : ThreadId) (w : WrapperPtr) (k : Nat) :
    List (Action T) → Bool
  | [] => decide ((s.readers t).pc = .holding w k)
  | a :: rest =>
    decide ((s.readers t).pc = .holding w k) &&
      match step s a with
      | some s1 => heldThroughout s1 t w k rest
      | none => true

/-- A schedule: thread 0 makes its first `Read` and keeps the handle; the
writer enters `Modify` and loads the index. -/
def readThenModify : List (Action Nat) :=
  [.read 0 true false, .setSpecific 0 0, .beginRead 0, .unsafeRead 0,
   .modify (valueFn acceptingIncrement), .writerStep]

/-- The schedule, continued: the writer mutates the background copy,
publishes it and takes `_wrappers_mutex`. -/
def mutateAndPublish : List (Action Nat) :=
  [.writerStep, .writerStep, .writerStep]

/-- State of the system when the writer, running `Modify(fn)` from `s` without
interruption, has published the background copy and taken `_wrappers_mutex`. -/
def Sys.published (s : Sys T) (fn : RefFn T) : Sys T :=
  { s with
    c := { s.c.setData (lnot s.c.index) (fn (lnot s.c.index) s.c).1 with
           index := lnot s.c.index },
    wrappers_locked := true,
    writer := .drain fn (lnot (lnot s.c.index)) 0 }

/-- A mutation that increments its copy and reports 1 while the copy is below
2, and otherwise leaves it alone and reports 0. -/
def incrementBelowTwo (x : Nat) : Nat × Nat := if x < 2 then (x + 1, 1) else (x, 0)

/-- The container as the second application of `Modify(fn)` finds it: the
first application has run on the background slot and the index has been
stored. -/
def afterPublish (fn : RefFn T) (c : Container T) : Container T :=
  { c.setData (lnot c.index) (fn (lnot c.index) c).1 with index := lnot c.index }

/-- A two-argument mutation that stores the successor of the read-only copy
and reports 1 exactly when the read-only copy is 0. -/
def succWhenForegroundZero (_bg fg : Nat) : Nat × Nat := (fg + 1, if fg = 0 then 1 else 0)

/-! ## Theorems -/

theorem lnot_le_one (x : Nat) : lnot x ≤ 1 := by
  unfold lnot; split <;> omega

theorem lnot_of_le_one {x : Nat} (h : x ≤ 1) : lnot x = 1 - x := by
  unfold lnot; split <;> omega

theorem lnot_lnot_of_le_one {x : Nat} (h : x ≤ 1) : lnot (lnot x) = x := by
  unfold lnot; split <;> simp <;> omega

theorem lnot_ne_self (x : Nat) : lnot x ≠ x := by
  unfold lnot; split <;> omega

theorem dataAt_setData_same (c : Container T) (k : Nat) (v : T) :
    (c.setData k v).dataAt k = v := by
  unfold Container.setData Container.dataAt; split <;> simp_all

theorem dataAt_setData_other (c : Container T) {k j : Nat} (v : T)
    (hk : k ≤ 1) (hj : j ≤ 1) (hne : j ≠ k) :
    (c.setData k v).dataAt j = c.dataAt j := by
  unfold Container.setData Container.dataAt
  by_cases h0 : k = 0
  · have : j ≠ 0 := by omega
    simp [h0, this]
  · have : j = 0 := by omega
    simp [h0, this]

theorem index_setData (c : Container T) (k : Nat) (v : T) :
    (c.setData k v).index = c.index := by
  unfold Container.setData; split <;> rfl

theorem wrappers_setData (c : Container T) (k : Nat) (v : T) :
    (c.setData k v).wrappers = c.wrappers := by
  unfold Container.setData; split <;> rfl

theorem setData_dataAt_self (c : Container T) (k : Nat) :
    c.setData k (c.dataAt k) = c := by
  unfold Container.setData Container.dataAt; split <;> rfl

theorem dataAt_index_update (c : Container T) (i k : Nat) :
    ({ c with index := i } : Container T).dataAt k = c.dataAt k := rfl

/-- Post-state, result and trace of a `Modify` whose first application reports 0. -/
theorem Modify_rejected (f : T → T × Nat) (c : Container T)
    (h0 : (f (c.dataAt (lnot c.index))).2 = 0) :
    Modify (valueFn f) c =
      { post := c.setData (lnot c.index) (f (c.dataAt (lnot c.index))).1, ret := 0,
        trace := [Event.lockModify, Event.apply (lnot c.index), Event.unlockModify] } := by
  simp [Modify, valueFn, h0]

/-- Post-state, result and trace of a `Modify` whose first application reports
a nonzero value. -/
theorem Modify_published (f : T → T × Nat) (c : Container T) (hi : c.index ≤ 1)
    (h1 : (f (c.dataAt (lnot c.index))).2 ≠ 0) :
    (Modify (valueFn f) c).post.index = lnot c.index ∧
    (Modify (valueFn f) c).post.dataAt (lnot c.index) = (f (c.dataAt (lnot c.index))).1 ∧
    (Modify (valueFn f) c).post.dataAt c.index = (f (c.dataAt c.index)).1 ∧
    (Modify (valueFn f) c).ret = (f (c.dataAt c.index)).2 ∧
    (Modify (valueFn f) c).post.wrappers = c.wrappers ∧
    (Modify (valueFn f) c).trace =
      [Event.lockModify, Event.apply (lnot c.index), Event.store (lnot c.index),
        Event.lockWrappers] ++ c.wrappers.map Event.waitReadDone ++
      [Event.unlockWrappers, Event.apply c.index, Event.unlockModify] := by
  obtain ⟨d0, d1, i, ck, ws⟩ := c
  have hcases : i = 0 ∨ i = 1 := by simp only at hi; omega
  rcases hcases with rfl | rfl
  · have h1' : (f d1).2 ≠ 0 := by simpa [lnot, Container.dataAt] using h1
    simp [Modify, valueFn, lnot, Container.dataAt, Container.setData, h1']
  · have h1' : (f d0).2 ≠ 0 := by simpa [lnot, Container.dataAt] using h1
    simp [Modify, valueFn, lnot, Container.dataAt, Container.setData, h1']

/-! ### Rejected and published `Modify` calls -/

/-- C2, as stated, fails: on a freshly constructed container of integers, a
mutation that increments its copy and reports 0 leaves `data[1]` changed. -/
theorem Modify_rejected_mutates_background :
    (rejectingIncrement ((construct (0 : Nat) 0).dataAt (lnot (construct (0 : Nat) 0).index))).2 = 0 ∧
    (Modify (valueFn rejectingIncrement) (construct (0 : Nat) 0)).post.data1 = 1 ∧
    (construct (0 : Nat) 0).data1 = 0 ∧
    (Modify (valueFn rejectingIncrement) (construct (0 : Nat) 0)).post.data1 ≠
      (construct (0 : Nat) 0).data1 := by
  decide

/-- C2 (amended): when the mutation function reports 0 on the background copy,
`Modify` leaves the index, the registry and the foreground copy `data[index]`
unchanged, and the background copy holds what the function left in it; so if
the function left its argument unchanged, the whole container is unchanged. -/
theorem Modify_rejected_unchanged (f : T → T × Nat) (c : Container T) (hi : c.index ≤ 1)
    (h0 : (f (c.dataAt (1 - c.index))).2 = 0) :
    (Modify (valueFn f) c).post.index = c.index ∧
    (Modify (valueFn f) c).post.wrappers = c.wrappers ∧
    (Modify (valueFn f) c).post.created_key = c.created_key ∧
    (Modify (valueFn f) c).post.dataAt c.index = c.dataAt c.index ∧
    (Modify (valueFn f) c).post.dataAt (1 - c.index) = (f (c.dataAt (1 - c.index))).1 ∧
    ((f (c.dataAt (1 - c.index))).1 = c.dataAt (1 - c.index) →
      (Modify (valueFn f) c).post = c) := by
  rw [← lnot_of_le_one hi] at h0 ⊢
  rw [Modify_rejected f c h0]
  refine ⟨index_setData _ _ _, wrappers_setData _ _ _, ?_,
    dataAt_setData_other _ _ (lnot_le_one _) hi (lnot_ne_self _).symm,
    dataAt_setData_same _ _ _, ?_⟩
  · simp only [Container.setData]; split <;> rfl
  · intro h; simp only [h, setData_dataAt_self]

/-- Witness for `Modify_rejected_unchanged`. -/
theorem Modify_rejected_unchanged_witness :
    (Modify (valueFn rejectingIncrement) (construct (0 : Nat) 0)).post.index
      = (construct (0 : Nat) 0).index ∧
    (Modify (valueFn rejectingIncrement) (construct (0 : Nat) 0)).post.dataAt 1 = 1 :=
  have h := Modify_rejected_unchanged rejectingIncrement (construct (0 : Nat) 0)
    (by decide) (by decide)
  ⟨h.1, h.2.2.2.2.1⟩

/-- C3: when the first application of the mutation function (to
`data[1 - index]`) reports 0, `Modify` returns 0, leaves `index` and the
foreground copy `data[index]` as they were, applies the function exactly once
(to the background slot) and makes no `WaitReadDone` call. -/
theorem Modify_abort_on_rejection (f : T → T × Nat) (c : Container T) (hi : c.index ≤ 1)
    (h0 : (f (c.dataAt (1 - c.index))).2 = 0) :
    (Modify (valueFn f) c).ret = 0 ∧
    (Modify (valueFn f) c).post.index = c.index ∧
    (Modify (valueFn f) c).post.dataAt c.index = c.dataAt c.index ∧
    (Modify (valueFn f) c).trace =
      [Event.lockModify, Event.apply (1 - c.index), Event.unlockModify] ∧
    applyCount (Modify (valueFn f) c).trace = 1 ∧
    drainCount (Modify (valueFn f) c).trace = 0 := by
  rw [← lnot_of_le_one hi] at h0 ⊢
  rw [Modify_rejected f c h0]
  refine ⟨rfl, index_setData _ _ _,
    dataAt_setData_other _ _ (lnot_le_one _) hi (lnot_ne_self _).symm, rfl, ?_, ?_⟩
  · simp [applyCount]
  · simp [drainCount]

/-- Witness for `Modify_abort_on_rejection`. -/
theorem Modify_abort_on_rejection_witness :
    (Modify (valueFn rejectingIncrement) (construct (0 : Nat) 0)).ret = 0 ∧
    applyCount (Modify (valueFn rejectingIncrement) (construct (0 : Nat) 0)).trace = 1 :=
  have h := Modify_abort_on_rejection rejectingIncrement (construct (0 : Nat) 0)
    (by decide) (by decide)
  ⟨h.1, h.2.2.2.2.1⟩

/-- C4: when the mutation function reports a nonzero value on `data[1 - i]`
(`i` the index, 0 or 1), `Modify` applies it exactly twice, first to slot
`1 - i` and then to slot `i`, with one `WaitReadDone` per registered wrapper in
between; afterwards `index = 1 - i`, each slot holds the function's result on
its old contents, and the returned value is that of the second application. -/
theorem Modify_success_post_state (f : T → T × Nat) (c : Container T) (hi : c.index ≤ 1)
    (h1 : (f (c.dataAt (1 - c.index))).2 ≠ 0) :
    (Modify (valueFn f) c).trace =
      [Event.lockModify, Event.apply (1 - c.index), Event.store (1 - c.index),
        Event.lockWrappers] ++ c.wrappers.map Event.waitReadDone ++
      [Event.unlockWrappers, Event.apply c.index, Event.unlockModify] ∧
    applyCount (Modify (valueFn f) c).trace = 2 ∧
    (Modify (valueFn f) c).post.index = 1 - c.index ∧
    (Modify (valueFn f) c).post.index ≤ 1 ∧
    (Modify (valueFn f) c).post.dataAt (1 - c.index) = (f (c.dataAt (1 - c.index))).1 ∧
    (Modify (valueFn f) c).post.dataAt c.index = (f (c.dataAt c.index)).1 ∧
    (Modify (valueFn f) c).ret = (f (c.dataAt c.index)).2 := by
  rw [← lnot_of_le_one hi] at h1 ⊢
  obtain ⟨hidx, hbg, hfg, hret, -, htr⟩ := Modify_published f c hi h1
  refine ⟨htr, ?_, hidx, hidx ▸ lnot_le_one _, hbg, hfg, hret⟩
  rw [htr]
  simp [applyCount, List.filter_append, List.filter_map, Function.comp_def]

/-- Witness for `Modify_success_post_state`. -/
theorem Modify_success_post_state_witness :
    (Modify (valueFn acceptingIncrement) (construct (0 : Nat) 0)).post.index = 1 ∧
    (Modify (valueFn acceptingIncrement) (construct (0 : Nat) 0)).ret = 1 :=
  have h := Modify_success_post_state acceptingIncrement (construct (0 : Nat) 0)
    (by decide) (by decide)
  ⟨h.2.2.1, h.2.2.2.2.2.2⟩

/-- C5, as stated, fails: after one rejected call that incremented the
background copy, `echoValue` reports 1 on the background copy, `Modify`
publishes (the index changes from 0 to 1) and yet returns 0, the value of the
second application. -/
theorem Modify_publishes_and_returns_zero :
    (runModifies (construct (0 : Nat) 0) [rejectingIncrement]).index = 0 ∧
    (echoValue ((runModifies (construct (0 : Nat) 0) [rejectingIncrement]).dataAt 1)).2 = 1 ∧
    (Modify (valueFn echoValue)
      (runModifies (construct (0 : Nat) 0) [rejectingIncrement])).post.index = 1 ∧
    (Modify (valueFn echoValue)
      (runModifies (construct (0 : Nat) 0) [rejectingIncrement])).ret = 0 := by
  decide

/-- With equal copies before the call, the closure that `ModifyWithForeground`
hands to `Modify` can report 1 on the background copy and 0 on the old
foreground: the call publishes and returns 0. -/
theorem ModifyWithForeground_publishes_and_returns_zero :
    (construct (0 : Nat) 0).data0 = (construct (0 : Nat) 0).data1 ∧
    (WithFG0 succWhenForegroundZero 1 (construct (0 : Nat) 0)).2 = 1 ∧
    (ModifyWithForeground succWhenForegroundZero (construct (0 : Nat) 0)).post.index = 1 ∧
    (ModifyWithForeground succWhenForegroundZero (construct (0 : Nat) 0)).ret = 0 := by
  decide

/-- C5 (amended): for every callable handed to `Modify` (a function of the
copy alone as well as the closures built by `Modify(fn, arg)` and
`ModifyWithForeground`), publication is aborted (index unchanged) exactly when
the callable reports 0 on the background copy, and then `Modify` returns 0;
when it reports a nonzero value `r` there, `Modify` publishes
(`index := 1 - index`) and returns the value of the second application, the one
to the old foreground copy in the container as published.  For a callable that
is a function of the copy it is handed alone, that value is the function's
result on the old foreground copy, which is `r` when the two copies were equal
before the call. -/
theorem Modify_return_value (fn : RefFn T) (c : Container T) (hi : c.index ≤ 1) :
    ((Modify fn c).post.index = c.index ↔ (fn (1 - c.index) c).2 = 0) ∧
    ((fn (1 - c.index) c).2 = 0 → (Modify fn c).ret = 0) ∧
    ((fn (1 - c.index) c).2 ≠ 0 →
      (Modify fn c).post.index = 1 - c.index ∧
      (Modify fn c).ret = (fn c.index (afterPublish fn c)).2) ∧
    (∀ f : T → T × Nat, fn = valueFn f → (f (c.dataAt (1 - c.index))).2 ≠ 0 →
      (Modify fn c).ret = (f (c.dataAt c.index)).2 ∧
      (c.data0 = c.data1 → (Modify fn c).ret = (f (c.dataAt (1 - c.index))).2)) := by
  rw [← lnot_of_le_one hi]
  have hll : lnot (lnot c.index) = c.index := lnot_lnot_of_le_one hi
  refine ⟨?_, ?_, ?_, ?_⟩
  · by_cases h0 : (fn (lnot c.index) c).2 = 0
    · simp [Modify, h0, index_setData]
    · simp only [Modify, h0, if_false, index_setData]
      constructor
      · intro h; exact absurd h (lnot_ne_self _)
      · intro h; exact absurd h (by simp)
  · intro h0
    simp [Modify, h0]
  · intro h0
    simp only [Modify, h0, if_false, index_setData, hll, afterPublish]
    exact ⟨trivial, trivial⟩
  · intro f hf h0
    subst hf
    obtain ⟨-, -, -, hret, -, -⟩ := Modify_published f c hi h0
    refine ⟨hret, ?_⟩
    intro heq
    rw [hret]
    simp [Container.dataAt, heq]

/-- Witness for `Modify_return_value`: the closure of `ModifyWithForeground`
reports 1 on the background copy of a fresh container, the call publishes and
returns the 0 of the second application. -/
theorem Modify_return_value_witness :
    (Modify (WithFG0 succWhenForegroundZero) (construct (0 : Nat) 0)).post.index = 1 ∧
    (Modify (WithFG0 succWhenForegroundZero) (construct (0 : Nat) 0)).ret = 0 :=
  have h := (Modify_return_value (WithFG0 succWhenForegroundZero) (construct (0 : Nat) 0)
    (by decide)).2.2.1 (by decide)
  ⟨h.1, h.2.trans (by decide)⟩

/-! ### Convergence of the two copies -/

theorem Modify_preserves_equal_copies (f : T → T × Nat) (c : Container T)
    (hclean : ∀ x, (f x).2 = 0 → (f x).1 = x)
    (hi : c.index ≤ 1) (heq : c.data0 = c.data1) :
    (Modify (valueFn f) c).post.index ≤ 1 ∧
    (Modify (valueFn f) c).post.data0 = (Modify (valueFn f) c).post.data1 := by
  obtain ⟨d0, d1, i, ck, ws⟩ := c
  simp only at hi heq
  subst heq
  have hcases : i = 0 ∨ i = 1 := by omega
  by_cases h0 : (f d0).2 = 0
  · have := hclean d0 h0
    rcases hcases with rfl | rfl <;>
      simp [Modify, valueFn, lnot, Container.dataAt, Container.setData, h0, this]
  · rcases hcases with rfl | rfl <;>
      simp [Modify, valueFn, lnot, Container.dataAt, Container.setData, h0]

theorem runModifies_equal_copies (fns : List (T → T × Nat)) (c : Container T)
    (hclean : ∀ f ∈ fns, ∀ x, (f x).2 = 0 → (f x).1 = x)
    (hi : c.index ≤ 1) (heq : c.data0 = c.data1) :
    (runModifies c fns).index ≤ 1 ∧ (runModifies c fns).data0 = (runModifies c fns).data1 := by
  induction fns generalizing c with
  | nil => exact ⟨hi, heq⟩
  | cons f rest ih =>
    have hstep := Modify_preserves_equal_copies f c (hclean f (List.mem_cons_self _ _)) hi heq
    exact ih _ (fun g hg => hclean g (List.mem_cons_of_mem _ hg)) hstep.1 hstep.2

/-- C1, as stated, fails: from a freshly constructed container, a rejected call
whose function incremented the background copy followed by a call that
returns 1 leaves `data[0] = 1` and `data[1] = 2`. -/
theorem Modify_sequence_diverges :
    (Modify (valueFn acceptingIncrement)
      (runModifies (construct (0 : Nat) 0) [rejectingIncrement])).ret = 1 ∧
    (runModifies (construct (0 : Nat) 0) [rejectingIncrement, acceptingIncrement]).data0 = 1 ∧
    (runModifies (construct (0 : Nat) 0) [rejectingIncrement, acceptingIncrement]).data1 = 2 ∧
    (runModifies (construct (0 : Nat) 0) [rejectingIncrement, acceptingIncrement]).data0 ≠
      (runModifies (construct (0 : Nat) 0) [rejectingIncrement, acceptingIncrement]).data1 := by
  decide

/-- C1 (amended): starting from a freshly constructed container (both copies
value-initialised, index 0), for every finite sequence of `Modify` calls whose
mutation functions are functions of the copy they are handed and leave that
copy unchanged whenever they report 0, after each call of the sequence the two
stored copies `data[0]` and `data[1]` are equal. -/
theorem Modify_convergence (init : T) (rc : Int) (fns : List (T → T × Nat))
    (hclean : ∀ f ∈ fns, ∀ x, (f x).2 = 0 → (f x).1 = x) (k : Nat) :
    (runModifies (construct init rc) (fns.take k)).data0 =
      (runModifies (construct init rc) (fns.take k)).data1 :=
  (runModifies_equal_copies (fns.take k) (construct init rc)
    (fun f hf => hclean f (List.mem_of_mem_take hf)) (Nat.zero_le 1) rfl).2

/-- Witness for `Modify_convergence`: three calls with `incrementBelowTwo`, the
third of which is rejected, leave both copies at 2. -/
theorem Modify_convergence_witness :
    (runModifies (construct (0 : Nat) 0)
      ([incrementBelowTwo, incrementBelowTwo, incrementBelowTwo].take 3)).data0 =
      (runModifies (construct (0 : Nat) 0)
        ([incrementBelowTwo, incrementBelowTwo, incrementBelowTwo].take 3)).data1 :=
  Modify_convergence (0 : Nat) 0 [incrementBelowTwo, incrementBelowTwo, incrementBelowTwo]
    (by
      intro f hf x h
      simp only [List.mem_cons, List.mem_singleton, List.not_mem_nil, or_false, or_self] at hf
      subst hf
      unfold incrementBelowTwo at h ⊢
      split at h
      · simp at h
      · rename_i hx
        simp [hx]) 3

/-! ### The read path -/

theorem Modify_created_key (fn : RefFn T) (c : Container T) :
    (Modify fn c).post.created_key = c.created_key := by
  unfold Modify
  simp only [Container.setData]
  split <;> split <;> (try split) <;> rfl

/-- C7: in a container whose thread key was created, for a thread whose
wrapper is obtainable, `Read` returns 0 and binds the handle to the foreground
slot `data[index]`; so a `Read` made after a `Modify` call that published sees
through its handle the mutation function's result on the pre-call background
copy. -/
theorem Read_post_publish_visibility (c : Container T)
    (specific newResult : Option WrapperPtr) (pushThrows : Bool) (setRc : Int)
    (ptr : ScopedPtr) (hkey : c.created_key = true)
    (hw : wrapperObtainable specific newResult pushThrows setRc) :
    (Read c specific newResult pushThrows setRc ptr).rc = 0 ∧
    (Read c specific newResult pushThrows setRc ptr).ptr.data = some c.index ∧
    (Read c specific newResult pushThrows setRc ptr).ptr.deref
        (Read c specific newResult pushThrows setRc ptr).post = some (c.dataAt c.index) ∧
    ∀ (c0 : Container T) (f : T → T × Nat), c0.index ≤ 1 →
      (f (c0.dataAt (1 - c0.index))).2 ≠ 0 → c = (Modify (valueFn f) c0).post →
      (Read c specific newResult pushThrows setRc ptr).ptr.deref
        (Read c specific newResult pushThrows setRc ptr).post
        = some (f (c0.dataAt (1 - c0.index))).1 := by
  have key : (Read c specific newResult pushThrows setRc ptr).rc = 0 ∧
      (Read c specific newResult pushThrows setRc ptr).ptr.data = some c.index ∧
      (Read c specific newResult pushThrows setRc ptr).ptr.deref
        (Read c specific newResult pushThrows setRc ptr).post = some (c.dataAt c.index) := by
    rcases hw with hs | ⟨hn, hp, hr⟩
    · obtain ⟨w, rfl⟩ := Option.isSome_iff_exists.mp hs
      simp [Read, hkey, UnsafeRead, ScopedPtr.deref]
    · obtain ⟨w, rfl⟩ := Option.isSome_iff_exists.mp hn
      subst hp hr
      cases specific with
      | some w0 => simp [Read, hkey, UnsafeRead, ScopedPtr.deref]
      | none => simp [Read, hkey, UnsafeRead, ScopedPtr.deref, AddWrapper, Container.dataAt]
  refine ⟨key.1, key.2.1, key.2.2, ?_⟩
  intro c0 f hi h1 hc
  rw [key.2.2, hc]
  rw [← lnot_of_le_one hi] at h1 ⊢
  obtain ⟨hidx, hbg, -⟩ := Modify_published f c0 hi h1
  rw [hidx, hbg]

/-- Witness for `Read_post_publish_visibility`: a first read after a published
increment sees 1. -/
theorem Read_post_publish_visibility_witness :
    (Read (Modify (valueFn acceptingIncrement) (construct (0 : Nat) 0)).post
        none (some 100) false 0 { data := none, w := none }).ptr.deref
      (Read (Modify (valueFn acceptingIncrement) (construct (0 : Nat) 0)).post
        none (some 100) false 0 { data := none, w := none }).post = some 1 :=
  (Read_post_publish_visibility
    (Modify (valueFn acceptingIncrement) (construct (0 : Nat) 0)).post
    none (some 100) false 0 { data := none, w := none } (by decide)
    (Or.inr ⟨rfl, rfl, rfl⟩)).2.2.2 (construct (0 : Nat) 0) acceptingIncrement
    (by decide) (by decide) rfl

/-! ### The wrapper registry -/

theorem RemoveWrapper_loop_absent (w : WrapperPtr) (ws rest : List WrapperPtr) (i : Nat)
    (h : w ∉ rest) : RemoveWrapper.loop w ws rest i = ws := by
  induction rest generalizing i with
  | nil => rfl
  | cons x r ih =>
    have hx : x ≠ w := fun e => h (e ▸ List.mem_cons_self _ _)
    simp only [RemoveWrapper.loop, hx, if_false]
    exact ih _ (fun hm => h (List.mem_cons_of_mem _ hm))

theorem RemoveWrapper_loop_found (w : WrapperPtr) (ws mid post : List WrapperPtr) (i : Nat)
    (h : w ∉ mid) :
    RemoveWrapper.loop w ws (mid ++ w :: post) i
      = (ws.set (i + mid.length) (ws.getLastD w)).dropLast := by
  induction mid generalizing i with
  | nil => simp [RemoveWrapper.loop]
  | cons x r ih =>
    have hx : x ≠ w := fun e => h (e ▸ List.mem_cons_self _ _)
    have hih := ih (i + 1) (fun hm => h (List.mem_cons_of_mem _ hm))
    have hlen : i + (x :: r).length = i + 1 + r.length := by simp only [List.length_cons]; omega
    rw [hlen, ← hih]
    show (if x = w then _ else _) = _
    rw [if_neg hx]
    rfl

theorem swap_pop_perm (w : WrapperPtr) (pre post : List WrapperPtr) :
    List.Perm (((pre ++ w :: post).set pre.length ((pre ++ w :: post).getLastD w)).dropLast)
      (pre ++ post) := by
  rcases List.eq_nil_or_concat post with rfl | ⟨post', l, rfl⟩
  · simp [List.getLastD]
  · rw [List.concat_eq_append]
    have hlast : (pre ++ w :: (post' ++ [l])).getLastD w = l := by
      have : pre ++ w :: (post' ++ [l]) = (pre ++ w :: post') ++ [l] := by simp
      rw [this, List.getLastD_eq_getLast?, List.getLast?_append]
      simp
    rw [hlast]
    have hset : (pre ++ w :: (post' ++ [l])).set pre.length l = (pre ++ l :: post') ++ [l] := by
      simp [List.set_append]
    rw [hset, List.dropLast_concat]
    refine List.Perm.append_left pre ?_
    exact (List.perm_append_singleton l post').symm

theorem RemoveWrapper_loop_perm (w : WrapperPtr) (ws : List WrapperPtr)
    (hnd : ws.Nodup) (hmem : w ∈ ws) :
    RemoveWrapper.loop w ws ws 0 = (ws.set (ws.indexOf w) (ws.getLastD w)).dropLast ∧
    List.Perm (RemoveWrapper.loop w ws ws 0) (ws.erase w) := by
  obtain ⟨pre, post, rfl⟩ := List.append_of_mem hmem
  have hpre : w ∉ pre := by
    intro hp
    have := List.nodup_append.mp hnd
    exact this.2.2 hp (List.mem_cons_self _ _)
  have hidx : (pre ++ w :: post).indexOf w = pre.length := by
    rw [List.indexOf_append_of_not_mem hpre]; simp
  have herase : (pre ++ w :: post).erase w = pre ++ post := by
    rw [List.erase_append_right _ hpre]; simp
  have hloop := RemoveWrapper_loop_found w (pre ++ w :: post) pre post 0 hpre
  rw [Nat.zero_add] at hloop
  rw [hloop, hidx, herase]
  exact ⟨rfl, swap_pop_perm w pre post⟩

theorem firstReads_wrappers (c : Container T) (ws : List WrapperPtr)
    (hkey : c.created_key = true) :
    (firstReads c ws).wrappers = c.wrappers ++ ws ∧ (firstReads c ws).created_key = true := by
  induction ws generalizing c with
  | nil => simp [firstReads, hkey]
  | cons w rest ih =>
    have hstep : (Read c none (some w) false 0 { data := none, w := none }).post
        = { c with wrappers := c.wrappers ++ [w] } := by
      simp [Read, hkey, AddWrapper]
    have := ih { c with wrappers := c.wrappers ++ [w] } hkey
    simp only [firstReads, List.foldl_cons, hstep] at this ⊢
    simpa using this

theorem threadExits_all (order : List WrapperPtr) (c : Container T)
    (hnd : c.wrappers.Nodup) (hperm : List.Perm c.wrappers order) :
    (threadExits c order).wrappers = [] := by
  induction order generalizing c with
  | nil => simpa [threadExits] using hperm.eq_nil
  | cons w rest ih =>
    have hmem : w ∈ c.wrappers := hperm.symm.subset (List.mem_cons_self _ _)
    obtain ⟨-, hp⟩ := RemoveWrapper_loop_perm w c.wrappers hnd hmem
    have hp2 : List.Perm (c.wrappers.erase w) rest := by
      have := hperm.erase w
      simpa using this
    have := ih (RemoveWrapper (some w) c) (by
        simp only [RemoveWrapper]
        exact (hp.nodup_iff).mpr (hnd.erase w)) (by
        simp only [RemoveWrapper]
        exact hp.trans hp2)
    simpa [threadExits] using this

/-- C8: starting from an empty registry, after N threads each made a first
`Read` (each registering one fresh wrapper through `AddWrapper`) and then each
terminated (each calling `RemoveWrapper` on its own wrapper, in any order), the
registry is empty again; `RemoveWrapper(w)` on a duplicate-free registry
containing `w` overwrites the position of `w` with the last element and pops,
which removes exactly `w`, keeps every other wrapper and shrinks the registry
by one; `RemoveWrapper` of `NULL` or of an absent wrapper changes nothing. -/
theorem wrapper_lifecycle (c : Container T) :
    (∀ ws order : List WrapperPtr, c.created_key = true → c.wrappers = [] → ws.Nodup →
      List.Perm order ws →
      (firstReads c ws).wrappers = ws ∧
      (threadExits (firstReads c ws) order).wrappers = []) ∧
    (∀ w : WrapperPtr, c.wrappers.Nodup → w ∈ c.wrappers →
      (RemoveWrapper (some w) c).wrappers
        = (c.wrappers.set (c.wrappers.indexOf w) (c.wrappers.getLastD w)).dropLast ∧
      w ∉ (RemoveWrapper (some w) c).wrappers ∧
      (∀ x, x ≠ w → (x ∈ (RemoveWrapper (some w) c).wrappers ↔ x ∈ c.wrappers)) ∧
      (RemoveWrapper (some w) c).wrappers.length + 1 = c.wrappers.length ∧
      (RemoveWrapper (some w) c).wrappers.Nodup) ∧
    RemoveWrapper none c = c ∧
    (∀ w : WrapperPtr, w ∉ c.wrappers → RemoveWrapper (some w) c = c) := by
  refine ⟨?_, ?_, rfl, ?_⟩
  · intro ws order hkey hempty hnd hperm
    have hfr := (firstReads_wrappers c ws hkey).1
    rw [hempty, List.nil_append] at hfr
    exact ⟨hfr, threadExits_all order _ (hfr.symm ▸ hnd) (hfr.symm ▸ hperm.symm)⟩
  · intro w hnd hmem
    obtain ⟨hfor, hp⟩ := RemoveWrapper_loop_perm w c.wrappers hnd hmem
    have hnd' : (RemoveWrapper.loop w c.wrappers c.wrappers 0).Nodup :=
      (hp.nodup_iff).mpr (hnd.erase w)
    refine ⟨hfor, ?_, ?_, ?_, hnd'⟩
    · show w ∉ RemoveWrapper.loop w c.wrappers c.wrappers 0
      intro hin
      exact (List.Nodup.not_mem_erase hnd) (hp.subset hin)
    · intro x hx
      show x ∈ RemoveWrapper.loop w c.wrappers c.wrappers 0 ↔ x ∈ c.wrappers
      rw [hp.mem_iff]
      exact List.mem_erase_of_ne hx
    · show (RemoveWrapper.loop w c.wrappers c.wrappers 0).length + 1 = c.wrappers.length
      rw [hp.length_eq, List.length_erase_of_mem hmem]
      have : 0 < c.wrappers.length := List.length_pos_of_mem hmem
      omega
  · intro w hw
    show ({ c with wrappers := RemoveWrapper.loop w c.wrappers c.wrappers 0 } : Container T) = c
    rw [RemoveWrapper_loop_absent w c.wrappers c.wrappers 0 hw]

/-- Witness for `wrapper_lifecycle`: three threads with wrappers 11, 12, 13
exit in the order 12, 13, 11. -/
theorem wrapper_lifecycle_witness :
    (firstReads (construct (0 : Nat) 0) [11, 12, 13]).wrappers = [11, 12, 13] ∧
    (threadExits (firstReads (construct (0 : Nat) 0) [11, 12, 13]) [12, 13, 11]).wrappers = [] :=
  (wrapper_lifecycle (construct (0 : Nat) 0)).1 [11, 12, 13] [12, 13, 11] rfl rfl
    (by decide) (by decide)

/-! ### `ModifyWithForeground` -/

/-- C9: every application made by `ModifyWithForeground(fn)` hands `fn` one
slot `data[k]` as mutable argument and the other slot `data[1 - k]` as
read-only argument.  The first application mutates `data[1 - i]` (`i` the
index at call time) and reads the foreground copy `data[i]` at its pre-call
value; the second application, made only when the first reported a nonzero
value, mutates the old foreground `data[i]` and reads the just-published copy
`data[1 - i]`. -/
theorem ModifyWithForeground_passes_other_copy (fn : T → T → T × Nat) (c : Container T)
    (hi : c.index ≤ 1) :
    (∀ (k : Nat) (s : Container T), k ≤ 1 →
      WithFG0 fn k s = fn (s.dataAt k) (s.dataAt (1 - k))) ∧
    (ModifyWithForeground fn c).trace.take 2 = [Event.lockModify, Event.apply (1 - c.index)] ∧
    (ModifyWithForeground fn c).post.dataAt (1 - c.index)
      = (fn (c.dataAt (1 - c.index)) (c.dataAt c.index)).1 ∧
    ((fn (c.dataAt (1 - c.index)) (c.dataAt c.index)).2 = 0 →
      (ModifyWithForeground fn c).ret = 0 ∧
      applyCount (ModifyWithForeground fn c).trace = 1 ∧
      (ModifyWithForeground fn c).post.dataAt c.index = c.dataAt c.index) ∧
    ((fn (c.dataAt (1 - c.index)) (c.dataAt c.index)).2 ≠ 0 →
      (ModifyWithForeground fn c).trace =
        [Event.lockModify, Event.apply (1 - c.index), Event.store (1 - c.index),
          Event.lockWrappers] ++ c.wrappers.map Event.waitReadDone ++
        [Event.unlockWrappers, Event.apply c.index, Event.unlockModify] ∧
      (ModifyWithForeground fn c).post.dataAt c.index
        = (fn (c.dataAt c.index) (fn (c.dataAt (1 - c.index)) (c.dataAt c.index)).1).1 ∧
      (ModifyWithForeground fn c).ret
        = (fn (c.dataAt c.index) (fn (c.dataAt (1 - c.index)) (c.dataAt c.index)).1).2) := by
  refine ⟨?_, ?_⟩
  · intro k s hk
    have hcases : k = 0 ∨ k = 1 := by omega
    rcases hcases with rfl | rfl <;> simp [WithFG0, boolIdx]
  · obtain ⟨d0, d1, i, ck, ws⟩ := c
    have hcases : i = 0 ∨ i = 1 := by simp only at hi; omega
    rcases hcases with rfl | rfl
    · by_cases h0 : (fn d1 d0).2 = 0 <;>
        simp [ModifyWithForeground, Modify, WithFG0, boolIdx, lnot, Container.dataAt,
          Container.setData, applyCount, h0]
    · by_cases h0 : (fn d0 d1).2 = 0 <;>
        simp [ModifyWithForeground, Modify, WithFG0, boolIdx, lnot, Container.dataAt,
          Container.setData, applyCount, h0]

/-- Witness for `ModifyWithForeground_passes_other_copy`: on a fresh container
slot 1 becomes `data[0] + 1 = 1`, then slot 0 becomes `data[1] + 1 = 2`. -/
theorem ModifyWithForeground_passes_other_copy_witness :
    (ModifyWithForeground succOfForeground (construct (0 : Nat) 0)).post.dataAt 1 = 1 ∧
    (ModifyWithForeground succOfForeground (construct (0 : Nat) 0)).post.dataAt 0 = 2 :=
  have h := ModifyWithForeground_passes_other_copy succOfForeground (construct (0 : Nat) 0)
    (by decide)
  ⟨h.2.2.1, (h.2.2.2.2 (by decide)).2.1⟩

/-! ### The `Servers` example -/

theorem Servers.Consistent.mem_iff {s : Servers} (h : s.Consistent) (id : ServerId) :
    id ∈ s.server_list ↔ ∃ p, s.server_map id = some p := by
  rw [List.mem_iff_getElem?]
  constructor
  · rintro ⟨p, hp⟩; exact ⟨p, (h.2 id p).mpr hp⟩
  · rintro ⟨p, hp⟩; exact ⟨p, (h.2 id p).mp hp⟩

theorem Servers.Consistent.not_mem_iff {s : Servers} (h : s.Consistent) (id : ServerId) :
    id ∉ s.server_list ↔ s.server_map id = none := by
  rw [h.mem_iff]
  cases s.server_map id <;> simp

theorem Servers.empty_consistent : Servers.empty.Consistent := by
  refine ⟨List.nodup_nil, ?_⟩
  intro id p
  simp [Servers.empty]

theorem Add_spec (s : Servers) (id : ServerId) (h : s.Consistent) :
    (Add s id).1.Consistent ∧
    ((Add s id).2 = true ↔ id ∉ s.server_list) ∧
    ((Add s id).2 = true → (Add s id).1.server_list = s.server_list ++ [id]) ∧
    ((Add s id).2 = false → (Add s id).1 = s) := by
  cases hm : s.server_map id with
  | some p =>
    have hin : id ∈ s.server_list := (h.mem_iff id).mpr ⟨p, hm⟩
    simp [Add, hm, h, hin]
  | none =>
    have hnot : id ∉ s.server_list := (h.not_mem_iff id).mpr hm
    simp only [Add, hm, hnot, not_false_eq_true, true_iff, forall_true_left, true_and,
      Bool.true_eq_false, false_implies, and_true]
    refine ⟨?_, ?_⟩
    · rw [List.nodup_append]
      refine ⟨h.1, List.nodup_singleton _, ?_⟩
      intro a ha hb
      rw [List.mem_singleton] at hb
      exact hnot (hb ▸ ha)
    · intro x q
      show Function.update s.server_map id (some s.server_list.length) x = some q
        ↔ (s.server_list ++ [id])[q]? = some x
      rw [Function.update_apply, List.getElem?_append]
      by_cases hx : x = id
      · subst hx
        simp only [if_true, Option.some.injEq]
        constructor
        · intro hq
          subst hq
          simp
        · intro hq
          split at hq
          · exact absurd (List.mem_iff_getElem?.mpr ⟨q, hq⟩) hnot
          · rename_i hlt
            have hlen : q - s.server_list.length < 1 := by
              by_contra hcon
              rw [List.getElem?_eq_none (by simp only [List.length_singleton]; omega)] at hq
              exact absurd hq (by simp)
            omega
      · simp only [hx, if_false]
        rw [h.2 x q]
        split
        · rfl
        · rename_i hlt
          constructor
          · intro hq
            rw [List.getElem?_eq_none (by omega)] at hq
            exact absurd hq (by simp)
          · intro hq
            have hmem : x ∈ [id] := List.mem_iff_getElem?.mpr ⟨_, hq⟩
            exact absurd (List.mem_singleton.mp hmem) hx

theorem Remove_spec (s : Servers) (id : ServerId) (h : s.Consistent) :
    (Remove s id).1.Consistent ∧
    ((Remove s id).2 = true ↔ id ∈ s.server_list) ∧
    ((Remove s id).2 = true →
      (∀ p, s.server_map id = some p → p = s.server_list.indexOf id ∧ p < s.server_list.length) ∧
      (Remove s id).1.server_list =
        (s.server_list.set (s.server_list.indexOf id) (s.server_list.getLastD id)).dropLast ∧
      (∀ x, x ∈ (Remove s id).1.server_list ↔ x ∈ s.server_list ∧ x ≠ id)) ∧
    ((Remove s id).2 = false → (Remove s id).1 = s) := by
  cases hm : s.server_map id with
  | none =>
    have hnot : id ∉ s.server_list := (h.not_mem_iff id).mpr hm
    simp [Remove, hm, h, hnot]
  | some p =>
    have hin : id ∈ s.server_list := (h.mem_iff id).mpr ⟨p, hm⟩
    have hp : s.server_list[p]? = some id := (h.2 id p).mp hm
    obtain ⟨hpn, hpid⟩ := List.getElem?_eq_some.mp hp
    obtain ⟨ls, mp⟩ := s
    simp only at h hm hin hp hpn hpid
    have hnd : ls.Nodup := h.1
    obtain ⟨pre, post, rfl⟩ := List.append_of_mem hin
    have hpre : id ∉ pre := fun hmem =>
      (List.nodup_append.mp hnd).2.2 hmem (List.mem_cons_self _ _)
    have hidx : (pre ++ id :: post).indexOf id = pre.length := by
      rw [List.indexOf_append_of_not_mem hpre]; simp
    have hpp : p = pre.length := by
      have h1 : (pre ++ id :: post)[pre.length]? = some id := by
        rw [List.getElem?_append_right (le_refl _)]; simp
      exact List.getElem?_inj hpn hnd (hp.trans h1.symm)
    subst hpp
    have hperm := swap_pop_perm id pre post
    have herase : (pre ++ id :: post).erase id = pre ++ post := by
      rw [List.erase_append_right _ hpre]; simp
    have hnd2 : (pre ++ post).Nodup := herase ▸ hnd.erase id
    have hnotin : id ∉ pre ++ post := herase ▸ List.Nodup.not_mem_erase hnd
    -- the last element
    obtain ⟨back, hbackdef⟩ : ∃ b, (pre ++ id :: post).getLastD id = b := ⟨_, rfl⟩
    have hbackget : (pre ++ id :: post)[(pre ++ id :: post).length - 1]? = some back := by
      rw [← hbackdef, List.getLastD_eq_getLast?, List.getLast?_eq_getElem?]
      rw [List.getElem?_eq_getElem (by omega)]
      rfl
    rw [hbackdef] at hperm
    have hget : ∀ q, (((pre ++ id :: post).set pre.length back).dropLast)[q]? =
        if q < (pre ++ id :: post).length - 1 then
          (if pre.length = q then some back else (pre ++ id :: post)[q]?) else none := by
      intro q
      rw [List.getElem?_dropLast, List.length_set, List.getElem?_set]
      simp only [hpn, if_true]
    have hset : ((pre ++ id :: post).set pre.length back).getD pre.length id = back := by
      rw [List.getD_eq_getElem?_getD, List.getElem?_set_self hpn]; rfl
    simp only [Remove, hm, hidx, hbackdef, hset, hin, iff_true, forall_true_left, true_and,
      Bool.true_eq_false, false_implies, and_true]
    refine ⟨⟨(hperm.nodup_iff).mpr hnd2, ?_⟩, ?_, ?_⟩
    · intro x q
      show Function.update (Function.update mp back (some pre.length)) id none x = some q ↔
        (((pre ++ id :: post).set pre.length back).dropLast)[q]? = some x
      rw [Function.update_apply]
      by_cases hx : x = id
      · rw [if_pos hx, hx]
        constructor
        · intro hq
          exact absurd hq (by simp)
        · intro hq
          exact absurd (hperm.subset (List.mem_iff_getElem?.mpr ⟨q, hq⟩)) hnotin
      · simp only [hx, if_false]
        rw [Function.update_apply, hget]
        by_cases hb : x = back
        · subst hb
          have hplt : pre.length < (pre ++ id :: post).length - 1 := by
            by_contra hcon
            have hpe : pre.length = (pre ++ id :: post).length - 1 := by omega
            rw [← hpe, hp] at hbackget
            exact hx (Option.some.inj hbackget).symm
          simp only [if_true, Option.some.injEq]
          constructor
          · intro hq
            subst hq
            rw [if_pos hplt, if_pos rfl]
          · intro hq
            split at hq
            · rename_i hqlt
              split at hq
              · assumption
              · have := List.getElem?_inj (by omega) hnd (hq.trans hbackget.symm)
                omega
            · exact absurd hq (by simp)
        · simp only [hb, if_false]
          rw [h.2 x q]
          constructor
          · intro hq
            have hqn : q < (pre ++ id :: post).length := (List.getElem?_eq_some.mp hq).1
            have hq1 : q ≠ (pre ++ id :: post).length - 1 := by
              intro he
              rw [he, hbackget] at hq
              exact hb (Option.some.inj hq).symm
            have hq2 : pre.length ≠ q := by
              intro he
              rw [← he, hp] at hq
              exact hx (Option.some.inj hq).symm
            rw [if_pos (by omega), if_neg hq2]
            exact hq
          · intro hq
            split at hq
            · split at hq
              · exact absurd (Option.some.inj hq).symm hb
              · exact hq
            · exact absurd hq (by simp)
    · intro q hq
      have hq' : pre.length = q := Option.some.inj hq
      exact hq' ▸ ⟨rfl, hpn⟩
    · intro x
      rw [hperm.mem_iff]
      constructor
      · intro hx
        refine ⟨?_, fun he => hnotin (he ▸ hx)⟩
        rcases List.mem_append.mp hx with h1 | h1
        · exact List.mem_append_left _ h1
        · exact List.mem_append_right _ (List.mem_cons_of_mem _ h1)
      · rintro ⟨hx, hne⟩
        rcases List.mem_append.mp hx with h1 | h1
        · exact List.mem_append_left _ h1
        · rcases List.mem_cons.mp h1 with h2 | h2
          · exact absurd h2 hne
          · exact List.mem_append_right _ h2

/-- C10: on a consistent `Servers` value (no id twice in `server_list`,
`server_map` maps exactly the ids of `server_list`, each to its position),
`Add(id)` and `Remove(id)` each return a consistent value; `Add` returns true
exactly when `id` was absent and then appends `id` at the end; `Remove` returns
true exactly when `id` was present, and then the position of `id` is
overwritten with the last element and the list is popped, so that the ids
left are the old ids without `id`; a false return leaves the value unchanged.
Consequently, on a freshly constructed container, `AddServer(7)`,
`AddServer(3)`, `RemoveServer(7)` each return true and leave both copies
holding `[7]`, then `[7, 3]`, then `[3]`. -/
theorem server_list_scenario :
    (∀ (s : Servers) (id : ServerId), s.Consistent →
      (Add s id).1.Consistent ∧ (Remove s id).1.Consistent ∧
      ((Add s id).2 = true ↔ id ∉ s.server_list) ∧
      ((Add s id).2 = true → (Add s id).1.server_list = s.server_list ++ [id]) ∧
      ((Add s id).2 = false → (Add s id).1 = s) ∧
      ((Remove s id).2 = true ↔ id ∈ s.server_list) ∧
      ((Remove s id).2 = true →
        (∀ p, s.server_map id = some p →
          p = s.server_list.indexOf id ∧ p < s.server_list.length) ∧
        (Remove s id).1.server_list =
          (s.server_list.set (s.server_list.indexOf id) (s.server_list.getLastD id)).dropLast ∧
        (∀ x, x ∈ (Remove s id).1.server_list ↔ x ∈ s.server_list ∧ x ≠ id)) ∧
      ((Remove s id).2 = false → (Remove s id).1 = s)) ∧
    (scenarioAdd7.2 = true ∧ scenarioAdd7.1.data0.server_list = [7] ∧
      scenarioAdd7.1.data1.server_list = [7]) ∧
    (scenarioAdd3.2 = true ∧ scenarioAdd3.1.data0.server_list = [7, 3] ∧
      scenarioAdd3.1.data1.server_list = [7, 3]) ∧
    (scenarioRemove7.2 = true ∧ scenarioRemove7.1.data0.server_list = [3] ∧
      scenarioRemove7.1.data1.server_list = [3] ∧
      scenarioRemove7.1.data0.server_map 3 = some 0 ∧
      scenarioRemove7.1.data1.server_map 3 = some 0 ∧
      scenarioRemove7.1.data0.server_map 7 = none ∧
      scenarioRemove7.1.data1.server_map 7 = none) := by
  refine ⟨?_, by decide, by decide, by decide⟩
  intro s id h
  obtain ⟨a1, a2, a3, a4⟩ := Add_spec s id h
  obtain ⟨r1, r2, r3, r4⟩ := Remove_spec s id h
  exact ⟨a1, r1, a2, a3, a4, r2, r3, r4⟩

/-- Witness for `server_list_scenario`: removing 7 from the consistent value
with list `[7, 3]` leaves `[3]`. -/
theorem server_list_scenario_witness :
    (Remove (Add (Add Servers.empty 7).1 3).1 7).1.Consistent ∧
    (Remove (Add (Add Servers.empty 7).1 3).1 7).1.server_list = [3] :=
  have hc : (Add (Add Servers.empty 7).1 3).1.Consistent :=
    (server_list_scenario.1 _ 3 (server_list_scenario.1 _ 7 Servers.empty_consistent).1).1
  ⟨(server_list_scenario.1 _ 7 hc).2.1, by decide⟩

/-! ### The invariant of the interleaved system -/

theorem exists_first_occurrence (w : WrapperPtr) (ws : List WrapperPtr) (h : w ∈ ws) :
    ∃ pre post, ws = pre ++ w :: post ∧ w ∉ pre := by
  induction ws with
  | nil => exact absurd h (List.not_mem_nil _)
  | cons x r ih =>
    by_cases hx : x = w
    · exact ⟨[], r, by simp [hx], List.not_mem_nil _⟩
    · have hr : w ∈ r := by
        rcases List.mem_cons.mp h with h1 | h1
        · exact absurd h1.symm hx
        · exact h1
      obtain ⟨pre, post, hp, hn⟩ := ih hr
      refine ⟨x :: pre, post, by simp [hp], ?_⟩
      intro hm
      rcases List.mem_cons.mp hm with h1 | h1
      · exact hx h1.symm
      · exact hn h1

theorem RemoveWrapper_loop_perm_erase (w : WrapperPtr) (ws : List WrapperPtr) :
    List.Perm (RemoveWrapper.loop w ws ws 0) (ws.erase w) := by
  by_cases hmem : w ∈ ws
  · obtain ⟨pre, post, rfl, hpre⟩ := exists_first_occurrence w ws hmem
    have herase : (pre ++ w :: post).erase w = pre ++ post := by
      rw [List.erase_append_right _ hpre]; simp
    have hloop := RemoveWrapper_loop_found w (pre ++ w :: post) pre post 0 hpre
    rw [Nat.zero_add] at hloop
    rw [hloop, herase]
    exact swap_pop_perm w pre post
  · rw [RemoveWrapper_loop_absent w ws ws 0 hmem, List.erase_of_not_mem hmem]

theorem mem_RemoveWrapper_loop (w x : WrapperPtr) (ws : List WrapperPtr)
    (h : x ∈ RemoveWrapper.loop w ws ws 0) : x ∈ ws :=
  List.mem_of_mem_erase ((RemoveWrapper_loop_perm_erase w ws).subset h)

theorem mem_RemoveWrapper_loop_of_ne (w x : WrapperPtr) (ws : List WrapperPtr)
    (hne : x ≠ w) (h : x ∈ ws) : x ∈ RemoveWrapper.loop w ws ws 0 :=
  (RemoveWrapper_loop_perm_erase w ws).symm.subset ((List.mem_erase_of_ne hne).mpr h)

theorem initial_Inv (init : T) (rc : Int) : Inv (initial init rc) := by
  refine ⟨Nat.zero_le _, ?_, ?_, ?_, ?_, ?_, ?_⟩
  · intro t w h; simp [initial] at h
  · intro t w h; simp [initial] at h
  · intro t w h; simp [initial, Owns] at h
  · intro t t1 w h; simp [initial, Owns] at h
  · intro w h; simp [initial, construct] at h
  · intro t w k h; simp [initial] at h
theorem WriterInv_of_frame (s s1 : Sys T) (h : WriterInv s)
    (hw : s1.writer = s.writer) (hidx : s1.c.index = s.c.index)
    (hlock : s1.wrappers_locked = s.wrappers_locked)
    (hreg : s.wrappers_locked = true → s1.c.wrappers = s.c.wrappers)
    (hmx : ∀ w, s.wmutex w = some .writer → s1.wmutex w = some .writer)
    (hhold : ∀ t w k, (s1.readers t).pc = .holding w k →
      (s.readers t).pc = .holding w k ∨ k = s.c.index) : WriterInv s1 := by
  unfold WriterInv at h ⊢
  rw [hw, hidx, hlock]
  cases hwr : s.writer with
  | idle =>
    rw [hwr] at h
    intro t w k hk
    rcases hhold t w k hk with h1 | h1
    · exact h t w k h1
    · exact h1
  | loadIndex fn =>
    rw [hwr] at h
    intro t w k hk
    rcases hhold t w k hk with h1 | h1
    · exact h t w k h1
    · exact h1
  | applyBg fn bg =>
    rw [hwr] at h
    refine ⟨h.1, ?_⟩
    intro t w k hk
    rcases hhold t w k hk with h1 | h1
    · exact h.2 t w k h1
    · exact h1
  | publish fn bg =>
    rw [hwr] at h
    refine ⟨h.1, ?_⟩
    intro t w k hk
    rcases hhold t w k hk with h1 | h1
    · exact h.2 t w k h1
    · exact h1
  | lockWrappers fn bg =>
    rw [hwr] at h
    exact h
  | drain fn bg i =>
    rw [hwr] at h
    obtain ⟨h1, h2, h3⟩ := h
    refine ⟨h1, h2, ?_⟩
    rw [hreg h2]
    intro t w k hk hmem
    rcases hhold t w k hk with h4 | h4
    · exact h3 t w k h4 hmem
    · exact h4
  | drainLocked fn bg i =>
    rw [hwr] at h
    obtain ⟨h1, h2, ⟨w0, hw0, hm0⟩, h3⟩ := h
    refine ⟨h1, h2, ?_, ?_⟩
    · rw [hreg h2]
      exact ⟨w0, hw0, hmx w0 hm0⟩
    · rw [hreg h2]
      intro t w k hk hmem
      rcases hhold t w k hk with h4 | h4
      · exact h3 t w k h4 hmem
      · exact h4
  | applyFg fn bg =>
    rw [hwr] at h
    refine ⟨h.1, ?_⟩
    intro t w k hk
    rcases hhold t w k hk with h1 | h1
    · exact h.2 t w k h1
    · exact h1

/-- Frame rule for the reader fields: a step of reader `t` that leaves the
other readers alone. -/
theorem Inv_of_reader_frame (s s1 : Sys T) (t : ThreadId) (h : Inv s)
    (hother : ∀ t1, t1 ≠ t → s1.readers t1 = s.readers t1)
    (hw : s1.writer = s.writer) (hidx : s1.c.index = s.c.index)
    (hlock : s1.wrappers_locked = s.wrappers_locked)
    (hreg : s.wrappers_locked = true → s1.c.wrappers = s.c.wrappers)
    (hmxw : ∀ w, s.wmutex w = some .writer → s1.wmutex w = some .writer)
    (hmxo : ∀ t1 w, t1 ≠ t → s.wmutex w = some (.reader t1) → s1.wmutex w = some (.reader t1))
    (hmx : ∀ w, ((s1.readers t).pc = .unsafeRead w ∨ ∃ k, (s1.readers t).pc = .holding w k) →
      s1.wmutex w = some (.reader t))
    (hsp : ∀ w, ((s1.readers t).pc = .beginRead w ∨ (s1.readers t).pc = .unsafeRead w ∨
      ∃ k, (s1.readers t).pc = .holding w k) → (s1.readers t).specific = some w)
    (hkeep : ∀ t1 w, t1 ≠ t → Owns s t1 w → w ∈ s1.c.wrappers)
    (hown : ∀ w, Owns s1 t w → w ∈ s1.c.wrappers ∧ ∀ t1, t1 ≠ t → ¬ Owns s t1 w)
    (hnext : ∀ w ∈ s1.c.wrappers, w < s1.next)
    (hhold : ∀ w k, (s1.readers t).pc = .holding w k →
      (s.readers t).pc = .holding w k ∨ k = s.c.index) : Inv s1 := by
  refine ⟨hidx ▸ h.index_le, ?_, ?_, ?_, ?_, hnext, ?_⟩
  · intro t1 w hh
    by_cases ht : t1 = t
    · subst ht; exact hmx w hh
    · rw [hother t1 ht] at hh
      exact hmxo t1 w ht (h.mutex_held t1 w hh)
  · intro t1 w hh
    by_cases ht : t1 = t
    · subst ht; exact hsp w hh
    · rw [hother t1 ht] at hh ⊢
      exact h.specific_set t1 w hh
  · intro t1 w hh
    by_cases ht : t1 = t
    · subst ht; exact (hown w hh).1
    · have : Owns s t1 w := by
        unfold Owns at hh ⊢; rw [hother t1 ht] at hh; exact hh
      exact hkeep t1 w ht this
  · intro t1 t2 w h1 h2
    by_cases ht1 : t1 = t
    · by_cases ht2 : t2 = t
      · rw [ht1, ht2]
      · subst ht1
        have : Owns s t2 w := by
          unfold Owns at h2 ⊢; rw [hother t2 ht2] at h2; exact h2
        exact absurd this ((hown w h1).2 t2 ht2)
    · have o1 : Owns s t1 w := by
        unfold Owns at h1 ⊢; rw [hother t1 ht1] at h1; exact h1
      by_cases ht2 : t2 = t
      · subst ht2
        exact absurd o1 ((hown w h2).2 t1 ht1)
      · have o2 : Owns s t2 w := by
          unfold Owns at h2 ⊢; rw [hother t2 ht2] at h2; exact h2
        exact h.owner_unique t1 t2 w o1 o2
  · refine WriterInv_of_frame s s1 h.writer_inv hw hidx hlock hreg hmxw ?_
    intro t1 w k hk
    by_cases ht : t1 = t
    · subst ht; exact hhold w k hk
    · rw [hother t1 ht] at hk
      exact Or.inl hk
theorem Owns_setPc_of_not_registered (s : Sys T) (t : ThreadId) (pc : RPc) (w : WrapperPtr)
    (hpc : ∀ w1, pc ≠ .registered w1) (h : Owns (s.setPc t pc) t w) : Owns s t w := by
  unfold Owns at h ⊢
  simp only [Sys.setPc, Function.update_same] at h
  rcases h with h | h
  · exact Or.inl h
  · exact absurd h (hpc w)

theorem Inv_read (s s1 : Sys T) (t : ThreadId) (newOk pushThrows : Bool) (h : Inv s)
    (hs : stepReader s (.read t newOk pushThrows) = some s1) : Inv s1 := by
  simp only [stepReader] at hs
  split at hs
  case h_2 => exact absurd hs (by simp)
  case h_1 hpc =>
    split at hs
    · cases hs; exact h
    · split at hs
      case h_1 w hsp =>
        cases hs
        refine Inv_of_reader_frame s _ t h ?_ rfl rfl rfl (fun _ => rfl) (fun _ hh => hh)
          (fun _ _ _ hh => hh) ?_ ?_ (fun t1 w1 _ ho => h.registered t1 w1 ho) ?_
          h.below_next ?_
        · intro t1 ht1; simp [Sys.setPc, Function.update_noteq ht1]
        · intro w1 hh; simp [Sys.setPc] at hh
        · intro w1 hh
          simp only [Sys.setPc, Function.update_same] at hh ⊢
          rcases hh with hh | hh | ⟨k, hh⟩
          · cases hh; exact hsp
          · cases hh
          · cases hh
        · intro w1 ho
          have ho' := Owns_setPc_of_not_registered s t _ w1 (by intro w2 hc; cases hc) ho
          exact ⟨h.registered t w1 ho', fun t1 ht1 ho1 => ht1 (h.owner_unique t1 t w1 ho1 ho')⟩
        · intro w1 k hh; simp [Sys.setPc] at hh
      case h_2 hsp =>
        split at hs
        · exact absurd hs (by simp)
        · rename_i hlock
          have hlock' : s.wrappers_locked = false := by simpa using hlock
          split at hs
          case h_1 w c1 hadd =>
            cases hs
            have hwc : w = s.next ∧ c1 = { s.c with wrappers := s.c.wrappers ++ [s.next] } := by
              unfold AddWrapper at hadd
              cases newOk <;> cases pushThrows <;> simp at hadd
              exact ⟨hadd.1.symm, hadd.2.symm⟩
            obtain ⟨rfl, rfl⟩ := hwc
            refine Inv_of_reader_frame s _ t h ?_ rfl rfl rfl ?_ (fun _ hh => hh)
              (fun _ _ _ hh => hh) ?_ ?_ ?_ ?_ ?_ ?_
            · intro t1 ht1; simp [Sys.setPc, Function.update_noteq ht1]
            · intro hl; rw [hlock'] at hl; cases hl
            · intro w1 hh; simp [Sys.setPc] at hh
            · intro w1 hh; simp [Sys.setPc] at hh
            · intro t1 w1 _ ho
              exact List.mem_append_left _ (h.registered t1 w1 ho)
            · intro w1 ho
              have hw1 : w1 = s.next := by
                unfold Owns at ho
                simp only [Sys.setPc, Function.update_same, hsp] at ho
                rcases ho with ho | ho
                · cases ho
                · cases ho; rfl
              subst hw1
              refine ⟨by simp [Sys.setPc], ?_⟩
              intro t1 _ ho1
              exact absurd (h.below_next _ (h.registered t1 _ ho1)) (lt_irrefl _)
            · intro w1 hw1
              simp only [Sys.setPc, List.mem_append, List.mem_singleton] at hw1 ⊢
              rcases hw1 with hw1 | hw1
              · exact Nat.lt_succ_of_lt (h.below_next w1 hw1)
              · rw [hw1]; exact Nat.lt_succ_self _
            · intro w1 k hh; simp [Sys.setPc] at hh
          case h_2 c1 hadd =>
            cases hs
            have hc1 : c1 = s.c := by
              unfold AddWrapper at hadd
              cases newOk <;> cases pushThrows <;> simp at hadd
              · exact hadd.symm
              · exact hadd.symm
              · rw [← hadd]
                unfold RemoveWrapper
                simp only
                rw [RemoveWrapper_loop_absent s.next s.c.wrappers s.c.wrappers 0
                  (fun hm => absurd (h.below_next _ hm) (lt_irrefl _))]
            subst hc1
            refine Inv_of_reader_frame s _ t h (fun _ _ => rfl) rfl rfl rfl (fun _ => rfl)
              (fun _ hh => hh) (fun _ _ _ hh => hh) (fun w1 hh => h.mutex_held t w1 hh)
              (fun w1 hh => h.specific_set t w1 hh) (fun t1 w1 _ ho => h.registered t1 w1 ho)
              ?_ ?_ (fun w1 k hh => Or.inl hh)
            · intro w1 ho
              exact ⟨h.registered t w1 ho, fun t1 ht1 ho1 => ht1 (h.owner_unique t1 t w1 ho1 ho)⟩
            · intro w1 hw1
              exact Nat.lt_succ_of_lt (h.below_next w1 hw1)
theorem Inv_setSpecific (s s1 : Sys T) (t : ThreadId) (rc : Int) (h : Inv s)
    (hs : stepReader s (.setSpecific t rc) = some s1) : Inv s1 := by
  simp only [stepReader] at hs
  split at hs
  case h_2 => exact absurd hs (by simp)
  case h_1 w hpc =>
    have hown : Owns s t w := Or.inr hpc
    split at hs
    · cases hs
      refine Inv_of_reader_frame s _ t h ?_ rfl rfl rfl (fun _ => rfl) (fun _ hh => hh)
        (fun _ _ _ hh => hh) ?_ ?_ (fun t1 w1 _ ho => h.registered t1 w1 ho) ?_
        h.below_next ?_
      · intro t1 ht1; simp [Function.update_noteq ht1]
      · intro w1 hh; simp at hh
      · intro w1 hh
        simp only [Function.update_same] at hh ⊢
        rcases hh with hh | hh | ⟨k, hh⟩
        · cases hh; rfl
        · cases hh
        · cases hh
      · intro w1 ho
        have hw1 : w1 = w := by
          unfold Owns at ho
          simp only [Function.update_same] at ho
          rcases ho with ho | ho
          · cases ho; rfl
          · cases ho
        subst hw1
        exact ⟨h.registered t w1 hown, fun t1 ht1 ho1 => ht1 (h.owner_unique t1 t w1 ho1 hown)⟩
      · intro w1 k hh; simp at hh
    · cases hs
      refine Inv_of_reader_frame s _ t h ?_ rfl rfl rfl (fun _ => rfl) (fun _ hh => hh)
        (fun _ _ _ hh => hh) ?_ ?_ (fun t1 w1 _ ho => h.registered t1 w1 ho) ?_
        h.below_next ?_
      · intro t1 ht1; simp [Sys.setPc, Function.update_noteq ht1]
      · intro w1 hh; simp [Sys.setPc] at hh
      · intro w1 hh; simp [Sys.setPc] at hh
      · intro w1 ho
        have ho' := Owns_setPc_of_not_registered s t _ w1 (by intro w2 hc; cases hc) ho
        exact ⟨h.registered t w1 ho', fun t1 ht1 ho1 => ht1 (h.owner_unique t1 t w1 ho1 ho')⟩
      · intro w1 k hh; simp [Sys.setPc] at hh

theorem Inv_beginRead (s s1 : Sys T) (t : ThreadId) (h : Inv s)
    (hs : stepReader s (.beginRead t) = some s1) : Inv s1 := by
  simp only [stepReader] at hs
  split at hs
  case h_2 => exact absurd hs (by simp)
  case h_1 w hpc =>
    split at hs
    case h_2 => exact absurd hs (by simp)
    case h_1 hfree =>
      cases hs
      have hne : ∀ (w1 : WrapperPtr) (o : Owner), s.wmutex w1 = some o → w1 ≠ w := by
        intro w1 o ho he
        rw [he, hfree] at ho
        cases ho
      refine Inv_of_reader_frame s _ t h ?_ rfl rfl rfl (fun _ => rfl) ?_ ?_ ?_ ?_
        (fun t1 w1 _ ho => h.registered t1 w1 ho) ?_ h.below_next ?_
      · intro t1 ht1; simp [Sys.setPc, Function.update_noteq ht1]
      · intro w1 hh
        simp only [Sys.setPc, Function.update_noteq (hne w1 _ hh)]
        exact hh
      · intro t1 w1 _ hh
        simp only [Sys.setPc, Function.update_noteq (hne w1 _ hh)]
        exact hh
      · intro w1 hh
        simp only [Sys.setPc, Function.update_same] at hh ⊢
        rcases hh with hh | ⟨k, hh⟩
        · cases hh; simp
        · cases hh
      · intro w1 hh
        simp only [Sys.setPc, Function.update_same] at hh ⊢
        rcases hh with hh | hh | ⟨k, hh⟩
        · cases hh
        · cases hh; exact h.specific_set t _ (Or.inl hpc)
        · cases hh
      · intro w1 ho
        have ho' : Owns s t w1 :=
          Owns_setPc_of_not_registered _ t _ w1 (by intro w2 hc; cases hc) ho
        exact ⟨h.registered t w1 ho', fun t1 ht1 ho1 => ht1 (h.owner_unique t1 t w1 ho1 ho')⟩
      · intro w1 k hh; simp [Sys.setPc] at hh

theorem Inv_unsafeRead (s s1 : Sys T) (t : ThreadId) (h : Inv s)
    (hs : stepReader s (.unsafeRead t) = some s1) : Inv s1 := by
  simp only [stepReader] at hs
  split at hs
  case h_2 => exact absurd hs (by simp)
  case h_1 w hpc =>
    cases hs
    refine Inv_of_reader_frame s _ t h ?_ rfl rfl rfl (fun _ => rfl) (fun _ hh => hh)
      (fun _ _ _ hh => hh) ?_ ?_ (fun t1 w1 _ ho => h.registered t1 w1 ho) ?_
      h.below_next ?_
    · intro t1 ht1; simp [Sys.setPc, Function.update_noteq ht1]
    · intro w1 hh
      simp only [Sys.setPc, Function.update_same] at hh ⊢
      rcases hh with hh | ⟨k, hh⟩
      · cases hh
      · cases hh; exact h.mutex_held t _ (Or.inl hpc)
    · intro w1 hh
      simp only [Sys.setPc, Function.update_same] at hh ⊢
      rcases hh with hh | hh | ⟨k, hh⟩
      · cases hh
      · cases hh
      · cases hh; exact h.specific_set t _ (Or.inr (Or.inl hpc))
    · intro w1 ho
      have ho' := Owns_setPc_of_not_registered s t _ w1 (by intro w2 hc; cases hc) ho
      exact ⟨h.registered t w1 ho', fun t1 ht1 ho1 => ht1 (h.owner_unique t1 t w1 ho1 ho')⟩
    · intro w1 k hh
      simp only [Sys.setPc, Function.update_same] at hh
      cases hh
      exact Or.inr rfl

theorem Inv_endRead (s s1 : Sys T) (t : ThreadId) (h : Inv s)
    (hs : stepReader s (.endRead t) = some s1) : Inv s1 := by
  simp only [stepReader] at hs
  split at hs
  case h_2 => exact absurd hs (by simp)
  case h_1 w k hpc =>
    cases hs
    have hmine : s.wmutex w = some (.reader t) := h.mutex_held t w (Or.inr ⟨k, hpc⟩)
    refine Inv_of_reader_frame s _ t h ?_ rfl rfl rfl (fun _ => rfl) ?_ ?_ ?_ ?_
      (fun t1 w1 _ ho => h.registered t1 w1 ho) ?_ h.below_next ?_
    · intro t1 ht1; simp [Sys.setPc, Function.update_noteq ht1]
    · intro w1 hh
      have hne : w1 ≠ w := by
        intro he; rw [he, hmine] at hh; cases hh
      simp only [Sys.setPc, Function.update_noteq hne]
      exact hh
    · intro t1 w1 ht1 hh
      have hne : w1 ≠ w := by
        intro he; rw [he, hmine] at hh; cases hh; exact ht1 rfl
      simp only [Sys.setPc, Function.update_noteq hne]
      exact hh
    · intro w1 hh; simp [Sys.setPc] at hh
    · intro w1 hh; simp [Sys.setPc] at hh
    · intro w1 ho
      have ho' : Owns s t w1 :=
        Owns_setPc_of_not_registered _ t _ w1 (by intro w2 hc; cases hc) ho
      exact ⟨h.registered t w1 ho', fun t1 ht1 ho1 => ht1 (h.owner_unique t1 t w1 ho1 ho')⟩
    · intro w1 k1 hh; simp [Sys.setPc] at hh

theorem Inv_exit (s s1 : Sys T) (t : ThreadId) (h : Inv s)
    (hs : stepReader s (.exit t) = some s1) : Inv s1 := by
  simp only [stepReader] at hs
  split at hs
  case h_2 => exact absurd hs (by simp)
  case h_1 hpc =>
    split at hs
    case h_1 w hsp =>
      split at hs
      · exact absurd hs (by simp)
      · rename_i hlock
        have hlock' : s.wrappers_locked = false := by simpa using hlock
        cases hs
        have hown : Owns s t w := Or.inl hsp
        refine Inv_of_reader_frame s _ t h ?_ rfl rfl rfl ?_ (fun _ hh => hh)
          (fun _ _ _ hh => hh) ?_ ?_ ?_ ?_ ?_ ?_
        · intro t1 ht1; simp [Function.update_noteq ht1]
        · intro hl; rw [hlock'] at hl; cases hl
        · intro w1 hh; simp at hh
        · intro w1 hh; simp at hh
        · intro t1 w1 ht1 ho
          have hne : w1 ≠ w := by
            intro he
            exact ht1 (h.owner_unique t1 t w (he ▸ ho) hown)
          exact mem_RemoveWrapper_loop_of_ne w w1 _ hne (h.registered t1 w1 ho)
        · intro w1 ho
          unfold Owns at ho
          simp at ho
        · intro w1 hw1
          exact h.below_next w1 (mem_RemoveWrapper_loop w w1 _ hw1)
        · intro w1 k hh; simp at hh
    case h_2 hsp =>
      cases hs
      refine Inv_of_reader_frame s _ t h ?_ rfl rfl rfl (fun _ => rfl) (fun _ hh => hh)
        (fun _ _ _ hh => hh) ?_ ?_ (fun t1 w1 _ ho => h.registered t1 w1 ho) ?_
        h.below_next ?_
      · intro t1 ht1; simp [Sys.setPc, Function.update_noteq ht1]
      · intro w1 hh; simp [Sys.setPc] at hh
      · intro w1 hh; simp [Sys.setPc] at hh
      · intro w1 ho
        have ho' := Owns_setPc_of_not_registered s t _ w1 (by intro w2 hc; cases hc) ho
        exact ⟨h.registered t w1 ho', fun t1 ht1 ho1 => ht1 (h.owner_unique t1 t w1 ho1 ho')⟩
      · intro w1 k hh; simp [Sys.setPc] at hh
/-- Frame rule for a step of the writer. -/
theorem Inv_of_writer_frame (s s1 : Sys T) (h : Inv s)
    (hr : s1.readers = s.readers) (hws : s1.c.wrappers = s.c.wrappers)
    (hn : s1.next = s.next) (hidx : s1.c.index ≤ 1)
    (hmx : ∀ t w, s.wmutex w = some (.reader t) → s1.wmutex w = some (.reader t))
    (hwi : WriterInv s1) : Inv s1 := by
  refine ⟨hidx, ?_, ?_, ?_, ?_, ?_, hwi⟩
  · intro t w hh
    rw [hr] at hh
    exact hmx t w (h.mutex_held t w hh)
  · intro t w hh
    rw [hr] at hh ⊢
    exact h.specific_set t w hh
  · intro t w ho
    rw [hws]
    exact h.registered t w (by unfold Owns at ho ⊢; rw [hr] at ho; exact ho)
  · intro t t1 w h1 h2
    exact h.owner_unique t t1 w (by unfold Owns at h1 ⊢; rw [hr] at h1; exact h1)
      (by unfold Owns at h2 ⊢; rw [hr] at h2; exact h2)
  · intro w hw
    rw [hn]
    rw [hws] at hw
    exact h.below_next w hw

theorem Inv_modify (s s1 : Sys T) (fn : RefFn T) (h : Inv s)
    (hs : step s (.modify fn) = some s1) : Inv s1 := by
  simp only [step] at hs
  split at hs
  case h_2 => exact absurd hs (by simp)
  case h_1 hpc =>
    cases hs
    have hwi := h.writer_inv
    unfold WriterInv at hwi
    rw [hpc] at hwi
    exact Inv_of_writer_frame s _ h rfl rfl rfl h.index_le (fun _ _ hh => hh) hwi

theorem Inv_writerStep (s s1 : Sys T) (h : Inv s) (hs : stepWriter s = some s1) : Inv s1 := by
  have hwi := h.writer_inv
  unfold WriterInv at hwi
  unfold stepWriter at hs
  split at hs
  case h_1 => exact absurd hs (by simp)
  case h_2 fn hpc =>
    cases hs
    rw [hpc] at hwi
    exact Inv_of_writer_frame s _ h rfl rfl rfl h.index_le (fun _ _ hh => hh) ⟨rfl, hwi⟩
  case h_3 fn bg hpc =>
    rw [hpc] at hwi
    split at hs
    · cases hs
      refine Inv_of_writer_frame s _ h rfl (wrappers_setData _ _ _) rfl
        (by simpa only [index_setData] using h.index_le) (fun _ _ hh => hh) ?_
      show ∀ t w k, _ → k = (s.c.setData bg _).index
      rw [index_setData]
      exact hwi.2
    · cases hs
      refine Inv_of_writer_frame s _ h rfl (wrappers_setData _ _ _) rfl
        (by simpa only [index_setData] using h.index_le) (fun _ _ hh => hh) ?_
      show bg = lnot (s.c.setData bg _).index ∧ ∀ t w k, _ → k = (s.c.setData bg _).index
      rw [index_setData]
      exact hwi
  case h_4 fn bg hpc =>
    cases hs
    rw [hpc] at hwi
    refine Inv_of_writer_frame s _ h rfl rfl rfl ?_ (fun _ _ hh => hh) ?_
    · show bg ≤ 1
      rw [hwi.1]
      exact lnot_le_one _
    · show lnot bg = lnot bg
      rfl
  case h_5 fn bg hpc =>
    rw [hpc] at hwi
    split at hs
    · exact absurd hs (by simp)
    · cases hs
      refine Inv_of_writer_frame s _ h rfl rfl rfl h.index_le (fun _ _ hh => hh) ?_
      refine ⟨hwi, rfl, ?_⟩
      intro t w k _ hmem
      simp at hmem
  case h_6 fn bg i hpc =>
    rw [hpc] at hwi
    obtain ⟨hbg, hlk, hpre⟩ := hwi
    split at hs
    case h_1 w hw =>
      split at hs
      case h_2 => exact absurd hs (by simp)
      case h_1 hfree =>
        cases hs
        refine Inv_of_writer_frame s _ h rfl rfl rfl h.index_le ?_ ?_
        · intro t w1 hh
          have hne : w1 ≠ w := by
            intro he; rw [he, hfree] at hh; cases hh
          simp only [Function.update_noteq hne]
          exact hh
        · exact ⟨hbg, hlk, ⟨w, hw, by simp⟩, hpre⟩
    case h_2 hnone =>
      cases hs
      refine Inv_of_writer_frame s _ h rfl rfl rfl h.index_le (fun _ _ hh => hh) ?_
      refine ⟨hbg, ?_⟩
      intro t w k hk
      have hsp := h.specific_set t w (Or.inr (Or.inr ⟨k, hk⟩))
      have hmem : w ∈ s.c.wrappers := h.registered t w (Or.inl hsp)
      have hlen : s.c.wrappers.length ≤ i := by
        by_contra hcon
        rw [List.getElem?_eq_getElem (by omega)] at hnone
        cases hnone
      rw [← List.take_of_length_le hlen] at hmem
      exact hpre t w k hk hmem
  case h_7 fn bg i hpc =>
    rw [hpc] at hwi
    obtain ⟨hbg, hlk, ⟨w0, hw0, hm0⟩, hpre⟩ := hwi
    split at hs
    case h_2 => exact absurd hs (by simp)
    case h_1 w hw =>
      cases hs
      have hww : w0 = w := by
        rw [hw0] at hw; exact Option.some.inj hw
      subst hww
      refine Inv_of_writer_frame s _ h rfl rfl rfl h.index_le ?_ ?_
      · intro t w1 hh
        have hne : w1 ≠ w0 := by
          intro he; rw [he, hm0] at hh; cases hh
        simp only [Function.update_noteq hne]
        exact hh
      · refine ⟨hbg, hlk, ?_⟩
        intro t w k hk hmem
        rw [List.take_succ, List.mem_append] at hmem
        rcases hmem with hmem | hmem
        · exact hpre t w k hk hmem
        · rw [hw0] at hmem
          simp only [Option.toList, List.mem_singleton] at hmem
          have := h.mutex_held t w (Or.inr ⟨k, hk⟩)
          rw [hmem, hm0] at this
          cases this
  case h_8 fn bg hpc =>
    cases hs
    rw [hpc] at hwi
    refine Inv_of_writer_frame s _ h rfl (wrappers_setData _ _ _) rfl
      (by simpa only [index_setData] using h.index_le) (fun _ _ hh => hh) ?_
    show ∀ t w k, _ → k = (s.c.setData bg _).index
    rw [index_setData]
    exact hwi.2

theorem Inv_step (s s1 : Sys T) (a : Action T) (h : Inv s) (hs : step s a = some s1) :
    Inv s1 := by
  cases a with
  | read t newOk pushThrows => exact Inv_read s s1 t newOk pushThrows h hs
  | setSpecific t rc => exact Inv_setSpecific s s1 t rc h hs
  | beginRead t => exact Inv_beginRead s s1 t h hs
  | unsafeRead t => exact Inv_unsafeRead s s1 t h hs
  | endRead t => exact Inv_endRead s s1 t h hs
  | exit t => exact Inv_exit s s1 t h hs
  | modify fn => exact Inv_modify s s1 fn h hs
  | writerStep => exact Inv_writerStep s s1 h hs

theorem Inv_run (acts : List (Action T)) (s s1 : Sys T) (h : Inv s)
    (hs : run s acts = some s1) : Inv s1 := by
  induction acts generalizing s with
  | nil =>
    simp only [run, Option.some.injEq] at hs
    exact hs ▸ h
  | cons a rest ih =>
    simp only [run] at hs
    cases hstep : step s a with
    | none => rw [hstep] at hs; cases hs
    | some s2 =>
      rw [hstep] at hs
      exact ih s2 (Inv_step s s2 a h hstep) hs
theorem stepReader_data (s s1 : Sys T) (a : Action T) (hs : stepReader s a = some s1) :
    ∀ k, s1.c.dataAt k = s.c.dataAt k := by
  have key : s1.c.data0 = s.c.data0 ∧ s1.c.data1 = s.c.data1 := by
    cases a with
    | read t newOk pushThrows =>
      simp only [stepReader] at hs
      split at hs
      case h_2 => exact absurd hs (by simp)
      case h_1 =>
        split at hs
        · cases hs; exact ⟨rfl, rfl⟩
        · split at hs
          · cases hs; exact ⟨rfl, rfl⟩
          · split at hs
            · exact absurd hs (by simp)
            · split at hs
              case h_1 w c1 hadd =>
                cases hs
                unfold AddWrapper at hadd
                cases newOk <;> cases pushThrows <;> simp [RemoveWrapper] at hadd
                obtain ⟨-, rfl⟩ := hadd
                exact ⟨rfl, rfl⟩
              case h_2 c1 hadd =>
                cases hs
                unfold AddWrapper at hadd
                cases newOk <;> cases pushThrows <;> simp [RemoveWrapper] at hadd <;>
                  subst hadd <;> exact ⟨rfl, rfl⟩
    | setSpecific t rc =>
      simp only [stepReader] at hs
      split at hs
      case h_2 => exact absurd hs (by simp)
      case h_1 =>
        split at hs <;> cases hs <;> exact ⟨rfl, rfl⟩
    | beginRead t =>
      simp only [stepReader] at hs
      split at hs
      case h_2 => exact absurd hs (by simp)
      case h_1 =>
        split at hs
        · cases hs; exact ⟨rfl, rfl⟩
        · exact absurd hs (by simp)
    | unsafeRead t =>
      simp only [stepReader] at hs
      split at hs
      case h_2 => exact absurd hs (by simp)
      case h_1 => cases hs; exact ⟨rfl, rfl⟩
    | endRead t =>
      simp only [stepReader] at hs
      split at hs
      case h_2 => exact absurd hs (by simp)
      case h_1 => cases hs; exact ⟨rfl, rfl⟩
    | exit t =>
      simp only [stepReader] at hs
      split at hs
      case h_2 => exact absurd hs (by simp)
      case h_1 =>
        split at hs
        · split at hs
          · exact absurd hs (by simp)
          · cases hs; exact ⟨rfl, rfl⟩
        · cases hs; exact ⟨rfl, rfl⟩
    | modify fn => simp [stepReader] at hs
    | writerStep => simp [stepReader] at hs
  intro k
  simp only [Container.dataAt, key.1, key.2]

/-- While a handle is alive, no step changes the copy it points at. -/
theorem step_keeps_held_value (s s1 : Sys T) (a : Action T) (h : Inv s)
    (hs : step s a = some s1) (t : ThreadId) (w : WrapperPtr) (k : Nat)
    (hk : (s.readers t).pc = .holding w k) : s1.c.dataAt k = s.c.dataAt k := by
  have hwi := h.writer_inv
  unfold WriterInv at hwi
  cases a with
  | read t1 newOk pushThrows => exact stepReader_data s s1 (.read t1 newOk pushThrows) hs k
  | setSpecific t1 rc => exact stepReader_data s s1 (.setSpecific t1 rc) hs k
  | beginRead t1 => exact stepReader_data s s1 (.beginRead t1) hs k
  | unsafeRead t1 => exact stepReader_data s s1 (.unsafeRead t1) hs k
  | endRead t1 => exact stepReader_data s s1 (.endRead t1) hs k
  | exit t1 => exact stepReader_data s s1 (.exit t1) hs k
  | modify fn =>
    simp only [step] at hs
    split at hs
    · cases hs; rfl
    · exact absurd hs (by simp)
  | writerStep =>
    simp only [step] at hs
    unfold stepWriter at hs
    split at hs
    case h_1 => exact absurd hs (by simp)
    case h_2 => cases hs; rfl
    case h_3 fn bg hpc =>
      rw [hpc] at hwi
      have hki : k = s.c.index := hwi.2 t w k hk
      have hne : k ≠ bg := by rw [hki, hwi.1]; exact (lnot_ne_self _).symm
      have hk1 : k ≤ 1 := hki ▸ h.index_le
      have hb1 : bg ≤ 1 := hwi.1 ▸ lnot_le_one _
      split at hs <;> cases hs <;> exact dataAt_setData_other _ _ hb1 hk1 hne
    case h_4 => cases hs; rfl
    case h_5 =>
      split at hs
      · exact absurd hs (by simp)
      · cases hs; rfl
    case h_6 =>
      split at hs
      · split at hs
        · cases hs; rfl
        · exact absurd hs (by simp)
      · cases hs; rfl
    case h_7 =>
      split at hs
      · cases hs; rfl
      · exact absurd hs (by simp)
    case h_8 fn bg hpc =>
      rw [hpc] at hwi
      have hki : k = s.c.index := hwi.2 t w k hk
      have hne : k ≠ bg := by rw [hki, hwi.1]; exact (lnot_ne_self _).symm
      have hk1 : k ≤ 1 := hki ▸ h.index_le
      have hb1 : bg ≤ 1 := hwi.1 ▸ lnot_le_one _
      cases hs
      exact dataAt_setData_other _ _ hb1 hk1 hne

theorem run_keeps_held_value (more : List (Action T)) (s s1 : Sys T) (h : Inv s)
    (t : ThreadId) (w : WrapperPtr) (k : Nat) (hs : run s more = some s1)
    (hheld : heldThroughout s t w k more = true) : s1.c.dataAt k = s.c.dataAt k := by
  induction more generalizing s with
  | nil =>
    simp only [run, Option.some.injEq] at hs
    rw [hs]
  | cons a rest ih =>
    simp only [run] at hs
    simp only [heldThroughout, Bool.and_eq_true, decide_eq_true_eq] at hheld
    cases hstep : step s a with
    | none => rw [hstep] at hs; cases hs
    | some s2 =>
      rw [hstep] at hs hheld
      rw [ih s2 (Inv_step s s2 a h hstep) hs hheld.2]
      exact step_keeps_held_value s s2 a h hstep t w k hheld.1

/-- C6: in every interleaving of reader threads with a writer running
`Modify`, whenever the writer is about to apply the mutation function to a
slot, that slot is not the foreground and no live handle points at it; a live
handle's thread holds its wrapper's read marker; and the value seen through a
handle stays the same in every state of the handle's life, whatever steps the
writer takes meanwhile. -/
theorem reader_isolation (init : T) (rc : Int) (acts : List (Action T)) (s : Sys T)
    (hrun : run (initial init rc) acts = some s) :
    (∀ fn bg, (s.writer = .applyBg fn bg ∨ s.writer = .applyFg fn bg) →
      bg ≠ s.c.index ∧ ∀ t w, (s.readers t).pc ≠ .holding w bg) ∧
    (∀ t w k, (s.readers t).pc = .holding w k → s.wmutex w = some (.reader t)) ∧
    (∀ t w k (more : List (Action T)) (s1 : Sys T), run s more = some s1 →
      heldThroughout s t w k more = true → s1.c.dataAt k = s.c.dataAt k) := by
  have h : Inv s := Inv_run acts _ s (initial_Inv init rc) hrun
  refine ⟨?_, ?_, ?_⟩
  · intro fn bg hpc
    have hwi := h.writer_inv
    unfold WriterInv at hwi
    have hboth : bg = lnot s.c.index ∧
        ∀ t w k, (s.readers t).pc = .holding w k → k = s.c.index := by
      rcases hpc with hpc | hpc <;> (rw [hpc] at hwi; exact hwi)
    refine ⟨hboth.1 ▸ lnot_ne_self _, ?_⟩
    intro t w hk
    have := hboth.2 t w bg hk
    rw [hboth.1] at this
    exact lnot_ne_self _ this
  · intro t w k hk
    exact h.mutex_held t w (Or.inr ⟨k, hk⟩)
  · intro t w k more s1 hs hheld
    exact run_keeps_held_value more s s1 h t w k hs hheld

/-- Witness for `reader_isolation`: thread 0 holds a handle on slot 0 while the
writer increments slot 1 and publishes it; the handle still sees 0. -/
theorem reader_isolation_witness :
    ∃ s s1 : Sys Nat, run (initial (0 : Nat) 0) readThenModify = some s ∧
      (s.readers 0).pc = .holding 1 0 ∧ run s mutateAndPublish = some s1 ∧
      s1.c.data1 = 1 ∧ s1.c.index = 1 ∧ s.c.dataAt 0 = 0 ∧
      s1.c.dataAt 0 = s.c.dataAt 0 :=
  ⟨_, _, rfl, rfl, rfl, rfl, rfl, rfl,
    (reader_isolation (0 : Nat) 0 readThenModify _ rfl).2.2 0 1 0 mutateAndPublish _ rfl rfl⟩
/-! ### The writer's steps compute `Modify` -/

theorem run_append (s : Sys T) (a b : List (Action T)) :
    run s (a ++ b) = (run s a).bind (fun s1 => run s1 b) := by
  induction a generalizing s with
  | nil => simp [run]
  | cons x rest ih =>
    simp only [List.cons_append, run]
    cases step s x with
    | none => rfl
    | some s2 => simp only [Option.some_bind]; exact ih s2

theorem run_drain (n : Nat) (s : Sys T) (fn : RefFn T) (bg i : Nat)
    (hw : s.writer = .drain fn bg i) (hlen : i + n = s.c.wrappers.length)
    (hfree : ∀ w ∈ s.c.wrappers, s.wmutex w = none) :
    ∃ s1, run s (List.replicate (2 * n) .writerStep) = some s1 ∧ s1.c = s.c ∧
      s1.writer = .drain fn bg (i + n) ∧ s1.wrappers_locked = s.wrappers_locked := by
  induction n generalizing s i with
  | zero => exact ⟨s, rfl, rfl, hw, rfl⟩
  | succ n ih =>
    have hi : i < s.c.wrappers.length := by omega
    have hget : s.c.wrappers[i]? = some s.c.wrappers[i] := List.getElem?_eq_getElem hi
    have hmem : s.c.wrappers[i] ∈ s.c.wrappers := List.getElem_mem hi
    have hnone := hfree _ hmem
    have hrep : List.replicate (2 * (n + 1)) (Action.writerStep : Action T)
        = .writerStep :: .writerStep :: List.replicate (2 * n) .writerStep := by
      rw [show 2 * (n + 1) = 2 * n + 1 + 1 by ring]; rfl
    have h1 : step s .writerStep = some { s with
        wmutex := Function.update s.wmutex s.c.wrappers[i] (some .writer),
        writer := .drainLocked fn bg i } := by
      simp only [step, stepWriter, hw, hget, hnone]
    have h2 : step { s with
        wmutex := Function.update s.wmutex s.c.wrappers[i] (some .writer),
        writer := .drainLocked fn bg i } .writerStep = some { s with
        wmutex := Function.update (Function.update s.wmutex s.c.wrappers[i] (some .writer))
          s.c.wrappers[i] none,
        writer := .drain fn bg (i + 1) } := by
      simp only [step, stepWriter, hget]
    obtain ⟨s1, hr, hc, hwr, hl⟩ := ih { s with
        wmutex := Function.update (Function.update s.wmutex s.c.wrappers[i] (some .writer))
          s.c.wrappers[i] none,
        writer := .drain fn bg (i + 1) } (i + 1) rfl (by simp only; omega) (by
          intro w hwm
          simp only [Function.update_apply]
          split
          · rfl
          · exact hfree w hwm)
    refine ⟨s1, ?_, hc, ?_, hl⟩
    · rw [hrep]
      simp only [run, h1, h2, Option.some_bind]
      exact hr
    · rw [hwr]; congr 1; omega

/-- With the wrappers' markers free and nobody else moving, the statements of
the writer take the container to the post-state of `Modify`. -/
theorem writer_steps_compute_Modify (s : Sys T) (fn : RefFn T) (hidle : s.writer = .idle)
    (hlock : s.wrappers_locked = false) (hfree : ∀ w ∈ s.c.wrappers, s.wmutex w = none) :
    ∃ n s1, run s (.modify fn :: List.replicate n .writerStep) = some s1 ∧
      s1.c = (Modify fn s.c).post ∧ s1.writer = .idle := by
  by_cases h0 : (fn (lnot s.c.index) s.c).2 = 0
  · refine ⟨2, { s with c := s.c.setData (lnot s.c.index) (fn (lnot s.c.index) s.c).1,
                        writer := .idle }, ?_, ?_, rfl⟩
    · simp only [List.replicate, run, step, stepWriter, hidle, Option.some_bind, h0, if_true]
    · simp [Modify, h0]
  · obtain ⟨s1, hr, hc, hwr, -⟩ := run_drain s.c.wrappers.length (s.published fn)
      fn (lnot (lnot s.c.index)) 0 rfl (by simp [Sys.published, wrappers_setData])
      (by intro w hwm
          simp only [Sys.published, wrappers_setData] at hwm
          exact hfree w hwm)
    have hnone : s1.c.wrappers[0 + s.c.wrappers.length]? = none := by
      rw [hc]
      simp [Sys.published, wrappers_setData]
    refine ⟨4 + 2 * s.c.wrappers.length + 2,
      { s1 with wrappers_locked := false,
                c := s1.c.setData (lnot (lnot s.c.index)) (fn (lnot (lnot s.c.index)) s1.c).1,
                writer := .idle }, ?_, ?_, rfl⟩
    · rw [List.replicate_add, List.replicate_add, ← List.cons_append, ← List.cons_append,
        run_append, run_append]
      have hfirst : run s (.modify fn :: List.replicate 4 .writerStep)
          = some (s.published fn) := by
        simp only [List.replicate, run, step, stepWriter, hidle, Option.some_bind, h0,
          if_false, hlock, Bool.false_eq_true, Sys.published]
      rw [hfirst]
      simp only [Option.some_bind, hr]
      simp only [List.replicate, run, step, stepWriter, hwr, hnone, Option.some_bind]
    · show s1.c.setData _ _ = _
      rw [hc]
      simp only [Modify, h0, if_false, Sys.published]

end DoublyBufferedData
